import Mathlib

/-!
Verification development for the PSBT (partially-signed transaction) engine
and the script/descriptor solvability engine of this repository.

The engine itself is exercised by the repository's functional tests
(`test/functional/rpc_psbt.py`, `test/functional/wallet_importmulti.py`);
its implementation is not part of the source tree given here, so every
definition below is modelled from the specification (`spec.md`), with the
concrete error strings and observable outcomes pinned by the functional
tests.  All machine integers are modelled as `Nat` with explicit bounds
where overflow matters; fallible operations return `Option` or `Except`.
-/

namespace PiratePsbt

/-- A byte, modelled as a natural number (well-formedness predicates bound it
below 256 where it matters). -/
abbrev Byte := Nat

/-- A byte string. -/
abbrev Bytes := List Nat

/-! ## Little-endian fixed-width integers -/

/-- Modelled from the spec: fixed-width little-endian serialization of an
unsigned integer (`width` bytes), as used for `vout`, amounts and public-key
payloads inside the canonical PSBT binary layout. -/
def natToLE : Nat → Nat → Bytes
  | 0, _ => []
  | w + 1, n => n % 256 :: natToLE w (n / 256)

/-- Modelled from the spec: read a fixed-width little-endian unsigned integer
from the front of a byte string, returning the value and the unconsumed
tail. -/
def readLE : Nat → Bytes → Option (Nat × Bytes)
  | 0, bs => some (0, bs)
  | _ + 1, [] => none
  | w + 1, b :: bs =>
    match readLE w bs with
    | none => none
    | some (n, rest) => some (b + 256 * n, rest)

theorem natToLE_length (w n : Nat) : (natToLE w n).length = w := by
  induction w generalizing n with
  | zero => rfl
  | succ w ih => simp [natToLE, ih]

theorem readLE_natToLE (w : Nat) (n : Nat) (rest : Bytes) (h : n < 256 ^ w) :
    readLE w (natToLE w n ++ rest) = some (n, rest) := by
  induction w generalizing n with
  | zero =>
    have : n = 0 := by simpa using h
    subst this; rfl
  | succ w ih =>
    have hdiv : n / 256 < 256 ^ w := by
      rw [Nat.div_lt_iff_lt_mul (by norm_num : 0 < 256)]
      calc n < 256 ^ (w + 1) := h
        _ = 256 ^ w * 256 := by ring
    simp only [natToLE, readLE, List.cons_append, List.append_eq, ih (n / 256) hdiv]
    rw [Nat.mod_add_div]

/-! ## CompactSize variable-length integers -/

/-- Modelled from the spec: the CompactSize variable-length count prefix of
the canonical binary layout (one byte below 253; otherwise a marker byte and
a fixed-width little-endian payload). -/
def compactSizeEnc (n : Nat) : Bytes :=
  if n < 253 then [n]
  else if n < 2 ^ 16 then 253 :: natToLE 2 n
  else if n < 2 ^ 32 then 254 :: natToLE 4 n
  else 255 :: natToLE 8 n

/-- Modelled from the spec: decode a CompactSize count prefix, returning the
value and the unconsumed tail. -/
def compactSizeDec : Bytes → Option (Nat × Bytes)
  | [] => none
  | b :: bs =>
    if b < 253 then some (b, bs)
    else if b = 253 then readLE 2 bs
    else if b = 254 then readLE 4 bs
    else readLE 8 bs

theorem compactSizeDec_enc (n : Nat) (rest : Bytes) (h : n < 2 ^ 64) :
    compactSizeDec (compactSizeEnc n ++ rest) = some (n, rest) := by
  unfold compactSizeEnc
  by_cases h1 : n < 253
  · simp [h1, compactSizeDec]
  · by_cases h2 : n < 2 ^ 16
    · simp only [h1, if_false, h2, if_true, List.cons_append]
      simpa [compactSizeDec] using readLE_natToLE 2 n rest (by norm_num at h2 ⊢; omega)
    · by_cases h3 : n < 2 ^ 32
      · simp only [h1, if_false, h2, if_false, h3, if_true, List.cons_append]
        simpa [compactSizeDec] using readLE_natToLE 4 n rest (by norm_num at h3 ⊢; omega)
      · simp only [h1, if_false, h2, if_false, h3, if_false, List.cons_append]
        simpa [compactSizeDec] using readLE_natToLE 8 n rest (by norm_num at h ⊢; omega)

theorem compactSizeEnc_length_pos (n : Nat) : 0 < (compactSizeEnc n).length := by
  unfold compactSizeEnc
  split
  · simp
  · split
    · simp
    · split <;> simp

/-! ## Reading raw byte runs -/

/-- Modelled from the spec: read exactly `n` raw bytes from the front of a
byte string. -/
def readBytes : Nat → Bytes → Option (Bytes × Bytes)
  | 0, bs => some ([], bs)
  | _ + 1, [] => none
  | n + 1, b :: bs =>
    match readBytes n bs with
    | none => none
    | some (xs, rest) => some (b :: xs, rest)

theorem readBytes_append (xs rest : Bytes) :
    readBytes xs.length (xs ++ rest) = some (xs, rest) := by
  induction xs with
  | nil => rfl
  | cons b bs ih => simp [readBytes, ih]

/-! ## Type-tagged key-value maps

Modelled from the spec (§4.3): the canonical binary layout is a sequence of
key-value maps; each map is a sequence of entries, an entry being a
length-prefixed type-tagged key followed by a length-prefixed opaque value;
a zero-length key marks the end of a map. -/

/-- One raw map entry: the type-tagged key bytes and the opaque value bytes. -/
abbrev Entry := Bytes × Bytes

/-- Modelled from the spec: serialize one map entry as a length-prefixed key
followed by a length-prefixed value. -/
def encodeEntry (e : Entry) : Bytes :=
  compactSizeEnc e.1.length ++ e.1 ++ compactSizeEnc e.2.length ++ e.2

/-- Serialize a list of map entries (without the end-of-map marker). -/
def encodeEntries (es : List Entry) : Bytes :=
  (es.map encodeEntry).flatten

/-- Modelled from the spec: serialize one key-value map, entries in order,
terminated by the end-of-map marker byte `0x00` (a zero-length key). -/
def encodeKVMap (es : List Entry) : Bytes :=
  encodeEntries es ++ [0]

/-- Modelled from the spec: decode one key-value map from the front of a byte
string, collecting entries until the end-of-map marker; rejects truncated
input.  `fuel` bounds the number of entries read (any value above the byte
length of the input is saturating, since every entry consumes bytes). -/
def decodeEntries : Nat → Bytes → Option (List Entry × Bytes)
  | 0, _ => none
  | fuel + 1, bs =>
    match compactSizeDec bs with
    | none => none
    | some (klen, r1) =>
      if klen = 0 then some ([], r1)
      else
        match readBytes klen r1 with
        | none => none
        | some (key, r2) =>
          match compactSizeDec r2 with
          | none => none
          | some (vlen, r3) =>
            match readBytes vlen r3 with
            | none => none
            | some (val, r4) =>
              match decodeEntries fuel r4 with
              | none => none
              | some (es, r5) => some ((key, val) :: es, r5)

/-- Serialization-level well-formedness of a list of map entries: keys are
nonempty (a zero-length key is reserved for the end-of-map marker) and all
length prefixes fit the CompactSize encoder's 64-bit range. -/
def wfEntries (es : List Entry) : Prop :=
  ∀ e ∈ es, e.1 ≠ [] ∧ e.1.length < 2 ^ 64 ∧ e.2.length < 2 ^ 64

instance (es : List Entry) : Decidable (wfEntries es) := by
  unfold wfEntries; infer_instance

theorem decodeEntries_encodeKVMap (es : List Entry) :
    ∀ (fuel : Nat) (rest : Bytes), es.length < fuel → wfEntries es →
      decodeEntries fuel (encodeKVMap es ++ rest) = some (es, rest) := by
  induction es with
  | nil =>
    intro fuel rest hfuel _
    match fuel, hfuel with
    | fuel + 1, _ =>
      simp [encodeKVMap, encodeEntries, decodeEntries, compactSizeDec]
  | cons e es ih =>
    intro fuel rest hfuel hwf
    match fuel, hfuel with
    | fuel + 1, hfuel =>
      obtain ⟨hk, hklen, hvlen⟩ := hwf e (List.mem_cons_self e es)
      have hwf' : wfEntries es := fun x hx => hwf x (List.mem_cons_of_mem e hx)
      have hklen0 : e.1.length ≠ 0 := by simpa using hk
      have hstream : encodeKVMap (e :: es) ++ rest =
          compactSizeEnc e.1.length ++ (e.1 ++ (compactSizeEnc e.2.length ++
            (e.2 ++ (encodeKVMap es ++ rest)))) := by
        simp [encodeKVMap, encodeEntries, encodeEntry, List.append_assoc]
      rw [hstream]
      unfold decodeEntries
      rw [compactSizeDec_enc _ _ hklen]
      simp only [hklen0, if_false, readBytes_append, compactSizeDec_enc _ _ hvlen,
        ih fuel rest (by simp only [List.length_cons] at hfuel; omega) hwf']

/-! ## Transaction skeleton

Modelled from the spec (§3): an `Outpoint` is the immutable identity of a
spendable coin (transaction id, output index); a `TxSkeleton` is an ordered
sequence of outpoints (inputs) and an ordered sequence of (amount, script)
pairs (outputs); it identifies "the same transaction" for combine purposes. -/

/-- Modelled from the spec: (transaction id, output index).  The transaction
id is a 32-byte string; the output index a 32-bit unsigned integer. -/
structure Outpoint where
  txid : Bytes
  vout : Nat
  deriving DecidableEq, Repr

/-- Modelled from the spec: one transaction output, an amount (64-bit
unsigned) and an output script. -/
structure TxOut where
  amount : Nat
  script : Bytes
  deriving DecidableEq, Repr

/-- Modelled from the spec: the unsigned-transaction skeleton held by a
PSBT's global map. -/
structure TxSkeleton where
  inputs : List Outpoint
  outputs : List TxOut
  deriving DecidableEq, Repr

/-- Serialize one outpoint: 32-byte txid, then the output index in 4
little-endian bytes. -/
def encodeOutpoint (o : Outpoint) : Bytes :=
  o.txid ++ natToLE 4 o.vout

/-- Serialize one output: 8-byte little-endian amount, then the
length-prefixed script. -/
def encodeTxOut (t : TxOut) : Bytes :=
  natToLE 8 t.amount ++ compactSizeEnc t.script.length ++ t.script

/-- Modelled from the spec: serialize the unsigned-transaction skeleton — a
CompactSize input count, the inputs, a CompactSize output count, the
outputs. -/
def encodeTx (tx : TxSkeleton) : Bytes :=
  compactSizeEnc tx.inputs.length ++ (tx.inputs.map encodeOutpoint).flatten ++
    compactSizeEnc tx.outputs.length ++ (tx.outputs.map encodeTxOut).flatten

/-- Decode `count` outpoints from the front of a byte string. -/
def decodeOutpoints : Nat → Bytes → Option (List Outpoint × Bytes)
  | 0, bs => some ([], bs)
  | count + 1, bs =>
    match readBytes 32 bs with
    | none => none
    | some (txid, r1) =>
      match readLE 4 r1 with
      | none => none
      | some (vout, r2) =>
        match decodeOutpoints count r2 with
        | none => none
        | some (os, r3) => some (⟨txid, vout⟩ :: os, r3)

/-- Decode `count` transaction outputs from the front of a byte string. -/
def decodeTxOuts : Nat → Bytes → Option (List TxOut × Bytes)
  | 0, bs => some ([], bs)
  | count + 1, bs =>
    match readLE 8 bs with
    | none => none
    | some (amount, r1) =>
      match compactSizeDec r1 with
      | none => none
      | some (slen, r2) =>
        match readBytes slen r2 with
        | none => none
        | some (script, r3) =>
          match decodeTxOuts count r3 with
          | none => none
          | some (ts, r4) => some (⟨amount, script⟩ :: ts, r4)

/-- Modelled from the spec: decode the unsigned-transaction skeleton; the
byte string must be consumed exactly. -/
def decodeTx (bs : Bytes) : Option TxSkeleton :=
  match compactSizeDec bs with
  | none => none
  | some (n, r1) =>
    match decodeOutpoints n r1 with
    | none => none
    | some (ins, r2) =>
      match compactSizeDec r2 with
      | none => none
      | some (m, r3) =>
        match decodeTxOuts m r3 with
        | none => none
        | some (outs, r4) => if r4 = [] then some ⟨ins, outs⟩ else none

/-- Serialization-level well-formedness of a transaction skeleton: 32-byte
txids, 32-bit output indices, 64-bit amounts, and counts/lengths in the
CompactSize range. -/
def wfTx (tx : TxSkeleton) : Prop :=
  (∀ o ∈ tx.inputs, o.txid.length = 32 ∧ o.vout < 2 ^ 32) ∧
  (∀ t ∈ tx.outputs, t.amount < 2 ^ 64 ∧ t.script.length < 2 ^ 64) ∧
  tx.inputs.length < 2 ^ 64 ∧ tx.outputs.length < 2 ^ 64

instance (tx : TxSkeleton) : Decidable (wfTx tx) := by
  unfold wfTx; infer_instance

theorem decodeOutpoints_encode (os : List Outpoint) (rest : Bytes)
    (h : ∀ o ∈ os, o.txid.length = 32 ∧ o.vout < 2 ^ 32) :
    decodeOutpoints os.length ((os.map encodeOutpoint).flatten ++ rest) =
      some (os, rest) := by
  induction os with
  | nil => rfl
  | cons o os ih =>
    obtain ⟨h32, hv⟩ := h o (List.mem_cons_self o os)
    have h' : ∀ x ∈ os, x.txid.length = 32 ∧ x.vout < 2 ^ 32 :=
      fun x hx => h x (List.mem_cons_of_mem o hx)
    have hstream : ((o :: os).map encodeOutpoint).flatten ++ rest =
        o.txid ++ (natToLE 4 o.vout ++ ((os.map encodeOutpoint).flatten ++ rest)) := by
      simp [encodeOutpoint, List.append_assoc]
    have hv4 : o.vout < 256 ^ 4 := by norm_num at hv ⊢; omega
    have hr := readLE_natToLE 4 o.vout ((os.map encodeOutpoint).flatten ++ rest) hv4
    simp only [List.length_cons, hstream]
    unfold decodeOutpoints
    rw [show (32 : Nat) = o.txid.length from h32.symm]
    simp only [readBytes_append, hr, ih h']

theorem decodeTxOuts_encode (ts : List TxOut) (rest : Bytes)
    (h : ∀ t ∈ ts, t.amount < 2 ^ 64 ∧ t.script.length < 2 ^ 64) :
    decodeTxOuts ts.length ((ts.map encodeTxOut).flatten ++ rest) =
      some (ts, rest) := by
  induction ts with
  | nil => rfl
  | cons t ts ih =>
    obtain ⟨ha, hs⟩ := h t (List.mem_cons_self t ts)
    have h' : ∀ x ∈ ts, x.amount < 2 ^ 64 ∧ x.script.length < 2 ^ 64 :=
      fun x hx => h x (List.mem_cons_of_mem t hx)
    have hstream : ((t :: ts).map encodeTxOut).flatten ++ rest =
        natToLE 8 t.amount ++ (compactSizeEnc t.script.length ++
          (t.script ++ ((ts.map encodeTxOut).flatten ++ rest))) := by
      simp [encodeTxOut, List.append_assoc]
    have ha8 : t.amount < 256 ^ 8 := by norm_num at ha ⊢; omega
    have hr := readLE_natToLE 8 t.amount (compactSizeEnc t.script.length ++
      (t.script ++ ((ts.map encodeTxOut).flatten ++ rest))) ha8
    have hc := compactSizeDec_enc t.script.length
      (t.script ++ ((ts.map encodeTxOut).flatten ++ rest)) hs
    simp only [List.length_cons, hstream]
    unfold decodeTxOuts
    simp only [hr, hc, readBytes_append, ih h']

theorem decodeTx_encodeTx (tx : TxSkeleton) (h : wfTx tx) :
    decodeTx (encodeTx tx) = some tx := by
  obtain ⟨hins, houts, hni, hno⟩ := h
  have hstream : encodeTx tx = compactSizeEnc tx.inputs.length ++
      ((tx.inputs.map encodeOutpoint).flatten ++ (compactSizeEnc tx.outputs.length ++
        ((tx.outputs.map encodeTxOut).flatten ++ []))) := by
    simp [encodeTx, List.append_assoc]
  have h1 := compactSizeDec_enc tx.inputs.length
    ((tx.inputs.map encodeOutpoint).flatten ++ (compactSizeEnc tx.outputs.length ++
      ((tx.outputs.map encodeTxOut).flatten ++ []))) hni
  have h2 := decodeOutpoints_encode tx.inputs
    (compactSizeEnc tx.outputs.length ++ ((tx.outputs.map encodeTxOut).flatten ++ [])) hins
  have h3 := compactSizeDec_enc tx.outputs.length
    ((tx.outputs.map encodeTxOut).flatten ++ []) hno
  have h4 := decodeTxOuts_encode tx.outputs ([] : Bytes) houts
  rw [hstream]
  unfold decodeTx
  simp only [h1, h2, h3, h4, if_true]

/-! ## PSBT records

Modelled from the spec (§3): an `InputRecord` holds optional
previous-transaction data, optional redeem and witness scripts, an
order-independent map from public key to signature, a map from public
key to HD key-origin, an optional sighash override, mutually exclusive final
unlock fields, and the unknown (forward-compatible) entries of its map.
Public keys are modelled as natural numbers below `256 ^ 33` (their 33-byte
payload); opaque values stay raw byte strings. -/

/-- Modelled from the spec: the per-input metadata map of a PSBT. -/
structure InputRecord where
  nonWitnessUtxo : Option Bytes
  witnessUtxo : Option Bytes
  partialSigs : List (Nat × Bytes)
  sighashType : Option Bytes
  redeemScript : Option Bytes
  witnessScript : Option Bytes
  hdKeypaths : List (Nat × Bytes)
  finalScriptSig : Option Bytes
  finalScriptWitness : Option Bytes
  unknown : List Entry
  deriving DecidableEq, Repr

/-- Modelled from the spec: the per-output metadata map of a PSBT (redeem
and witness scripts and key origins for change verification; no signature
data). -/
structure OutputRecord where
  redeemScript : Option Bytes
  witnessScript : Option Bytes
  hdKeypaths : List (Nat × Bytes)
  unknown : List Entry
  deriving DecidableEq, Repr

/-- Modelled from the spec: a PSBT is a transaction skeleton, one
`InputRecord` per skeleton input, one `OutputRecord` per skeleton output
(index-aligned), and the unknown entries of the global map. -/
structure PSBT where
  tx : TxSkeleton
  inputs : List InputRecord
  outputs : List OutputRecord
  unknown : List Entry
  deriving DecidableEq, Repr

/-- The entry for an optional single-keyed field with a one-byte type tag. -/
def optEntry (tag : Nat) : Option Bytes → List Entry
  | none => []
  | some v => [([tag], v)]

/-- The fixed 33-byte payload of a public key inside a map key. -/
def pkBytes (pk : Nat) : Bytes := natToLE 33 pk

/-- Modelled from the spec: the entries of one input's key-value map, known
fields in tag order (`0x00` previous transaction, `0x01` previous output,
`0x02` partial signatures keyed by public key, `0x03` sighash type, `0x04`
redeem script, `0x05` witness script, `0x06` HD key origins keyed by public
key, `0x07` final script, `0x08` final witness), then the unknown entries,
re-emitted unchanged. -/
def encodeInputRecord (r : InputRecord) : List Entry :=
  optEntry 0 r.nonWitnessUtxo ++ optEntry 1 r.witnessUtxo ++
  r.partialSigs.map (fun s => (2 :: pkBytes s.1, s.2)) ++
  optEntry 3 r.sighashType ++ optEntry 4 r.redeemScript ++
  optEntry 5 r.witnessScript ++
  r.hdKeypaths.map (fun s => (6 :: pkBytes s.1, s.2)) ++
  optEntry 7 r.finalScriptSig ++ optEntry 8 r.finalScriptWitness ++
  r.unknown

/-- Modelled from the spec: the entries of one output's key-value map
(`0x00` redeem script, `0x01` witness script, `0x02` HD key origins), then
the unknown entries. -/
def encodeOutputRecord (r : OutputRecord) : List Entry :=
  optEntry 0 r.redeemScript ++ optEntry 1 r.witnessScript ++
  r.hdKeypaths.map (fun s => (2 :: pkBytes s.1, s.2)) ++
  r.unknown

/-- The empty input record. -/
def emptyInput : InputRecord := ⟨none, none, [], none, none, none, [], none, none, []⟩

/-- The empty output record. -/
def emptyOutput : OutputRecord := ⟨none, none, [], []⟩

/-- The little-endian value of a byte string (inverse of `natToLE` on
canonical byte strings). -/
def leVal : Bytes → Nat
  | [] => 0
  | b :: bs => b + 256 * leVal bs

/-- Modelled from the spec: dispatch one decoded entry of an input map into
the input record being built.  A duplicate known field, or a known type tag
with a malformed key, rejects the map; an entry with an unknown type tag is
preserved verbatim. -/
def inputStep (r : InputRecord) (e : Entry) : Option InputRecord :=
  match e.1 with
  | [] => none
  | t :: pk =>
    if 8 < t then some { r with unknown := r.unknown ++ [e] }
    else if t = 2 then
      if pk.length = 33 then some { r with partialSigs := r.partialSigs ++ [(leVal pk, e.2)] }
      else none
    else if t = 6 then
      if pk.length = 33 then some { r with hdKeypaths := r.hdKeypaths ++ [(leVal pk, e.2)] }
      else none
    else if pk = [] then
      if t = 0 then
        if r.nonWitnessUtxo = none then some { r with nonWitnessUtxo := some e.2 } else none
      else if t = 1 then
        if r.witnessUtxo = none then some { r with witnessUtxo := some e.2 } else none
      else if t = 3 then
        if r.sighashType = none then some { r with sighashType := some e.2 } else none
      else if t = 4 then
        if r.redeemScript = none then some { r with redeemScript := some e.2 } else none
      else if t = 5 then
        if r.witnessScript = none then some { r with witnessScript := some e.2 } else none
      else if t = 7 then
        if r.finalScriptSig = none then some { r with finalScriptSig := some e.2 } else none
      else
        if r.finalScriptWitness = none then some { r with finalScriptWitness := some e.2 } else none
    else none

/-- Fold the decoded entries of an input map into an input record. -/
def applyInputEntries : List Entry → InputRecord → Option InputRecord
  | [], r => some r
  | e :: es, r =>
    match inputStep r e with
    | none => none
    | some r2 => applyInputEntries es r2

/-- Modelled from the spec: dispatch one decoded entry of an output map. -/
def outputStep (r : OutputRecord) (e : Entry) : Option OutputRecord :=
  match e.1 with
  | [] => none
  | t :: pk =>
    if 2 < t then some { r with unknown := r.unknown ++ [e] }
    else if t = 2 then
      if pk.length = 33 then some { r with hdKeypaths := r.hdKeypaths ++ [(leVal pk, e.2)] }
      else none
    else if pk = [] then
      if t = 0 then
        if r.redeemScript = none then some { r with redeemScript := some e.2 } else none
      else
        if r.witnessScript = none then some { r with witnessScript := some e.2 } else none
    else none

/-- Fold the decoded entries of an output map into an output record. -/
def applyOutputEntries : List Entry → OutputRecord → Option OutputRecord
  | [], r => some r
  | e :: es, r =>
    match outputStep r e with
    | none => none
    | some r2 => applyOutputEntries es r2

/-- The decoded contents of the global map: the serialized unsigned
transaction (type tag `0x00`) and the unknown entries. -/
structure GlobalAcc where
  txBytes : Option Bytes
  unknown : List Entry
  deriving DecidableEq, Repr

/-- Modelled from the spec: dispatch one decoded entry of the global map
(`0x00` holds the unsigned transaction skeleton; unknown type tags are
preserved verbatim). -/
def globalStep (g : GlobalAcc) (e : Entry) : Option GlobalAcc :=
  match e.1 with
  | [] => none
  | t :: pk =>
    if 0 < t then some { g with unknown := g.unknown ++ [e] }
    else if pk = [] then
      if g.txBytes = none then some { g with txBytes := some e.2 } else none
    else none

/-- Fold the decoded entries of the global map. -/
def applyGlobalEntries : List Entry → GlobalAcc → Option GlobalAcc
  | [], g => some g
  | e :: es, g =>
    match globalStep g e with
    | none => none
    | some g2 => applyGlobalEntries es g2

/-! ## PSBT serialization

Modelled from the spec (§4.3): a fixed magic, one global key-value map
(holding the unsigned transaction skeleton), then one key-value map per
input in skeleton order, then one per output in skeleton order.  Unknown
type tags in any map are preserved byte-for-byte and re-emitted unchanged
on re-serialization. -/

/-- The fixed magic/separator opening every serialized PSBT. -/
def psbtMagic : Bytes := [0x70, 0x73, 0x62, 0x74, 0xff]

/-- The entries of a PSBT's global map: the unsigned transaction under type
tag `0x00`, then the unknown global entries. -/
def globalEntries (p : PSBT) : List Entry :=
  ([0], encodeTx p.tx) :: p.unknown

/-- Modelled from the spec: the canonical binary serialization of a PSBT. -/
def encodePsbt (p : PSBT) : Bytes :=
  psbtMagic ++ encodeKVMap (globalEntries p) ++
    (p.inputs.map (fun r => encodeKVMap (encodeInputRecord r))).flatten ++
    (p.outputs.map (fun r => encodeKVMap (encodeOutputRecord r))).flatten

/-- Decode `count` input maps from the front of a byte string. -/
def decodeInputMaps : Nat → Bytes → Option (List InputRecord × Bytes)
  | 0, bs => some ([], bs)
  | count + 1, bs =>
    match decodeEntries (bs.length + 1) bs with
    | none => none
    | some (es, r1) =>
      match applyInputEntries es emptyInput with
      | none => none
      | some ri =>
        match decodeInputMaps count r1 with
        | none => none
        | some (rs, r2) => some (ri :: rs, r2)

/-- Decode `count` output maps from the front of a byte string. -/
def decodeOutputMaps : Nat → Bytes → Option (List OutputRecord × Bytes)
  | 0, bs => some ([], bs)
  | count + 1, bs =>
    match decodeEntries (bs.length + 1) bs with
    | none => none
    | some (es, r1) =>
      match applyOutputEntries es emptyOutput with
      | none => none
      | some ro =>
        match decodeOutputMaps count r1 with
        | none => none
        | some (rs, r2) => some (ro :: rs, r2)

/-- Modelled from the spec: decode a serialized PSBT — check the magic,
decode the global map, recover the unsigned transaction skeleton, decode one
input map per skeleton input and one output map per skeleton output, and
reject malformed or trailing bytes. -/
def decodePsbt (bs : Bytes) : Option PSBT :=
  match readBytes 5 bs with
  | none => none
  | some (magic, r0) =>
    if magic = psbtMagic then
      match decodeEntries (r0.length + 1) r0 with
      | none => none
      | some (ges, r1) =>
        match applyGlobalEntries ges ⟨none, []⟩ with
        | none => none
        | some g =>
          match g.txBytes with
          | none => none
          | some tb =>
            match decodeTx tb with
            | none => none
            | some tx =>
              match decodeInputMaps tx.inputs.length r1 with
              | none => none
              | some (ins, r2) =>
                match decodeOutputMaps tx.outputs.length r2 with
                | none => none
                | some (outs, r3) =>
                  if r3 = [] then some ⟨tx, ins, outs, g.unknown⟩ else none
    else none

/-! ## PSBT validity -/

/-- The key of an unknown entry: nonempty, with a type tag above every known
tag of the map it lives in. -/
def unknownKeyAbove (bound : Nat) : Bytes → Prop
  | [] => False
  | t :: _ => bound < t

instance (bound : Nat) (k : Bytes) : Decidable (unknownKeyAbove bound k) := by
  unfold unknownKeyAbove; split <;> infer_instance

/-- Validity of an input record: serializable entry lengths, public keys in
the 33-byte range, and unknown entries carrying genuinely unknown type
tags. -/
def wfInput (r : InputRecord) : Prop :=
  wfEntries (encodeInputRecord r) ∧
  (∀ s ∈ r.partialSigs, s.1 < 256 ^ 33) ∧
  (∀ s ∈ r.hdKeypaths, s.1 < 256 ^ 33) ∧
  (∀ u ∈ r.unknown, unknownKeyAbove 8 u.1)

instance (r : InputRecord) : Decidable (wfInput r) := by
  unfold wfInput; infer_instance

/-- Validity of an output record. -/
def wfOutput (r : OutputRecord) : Prop :=
  wfEntries (encodeOutputRecord r) ∧
  (∀ s ∈ r.hdKeypaths, s.1 < 256 ^ 33) ∧
  (∀ u ∈ r.unknown, unknownKeyAbove 2 u.1)

instance (r : OutputRecord) : Decidable (wfOutput r) := by
  unfold wfOutput; infer_instance

/-- Modelled from the spec: a valid PSBT — a serializable skeleton, record
counts equal to the skeleton input/output counts (the structural invariant
of §3), valid records, and a serializable global map whose unknown entries
carry unknown type tags. -/
def wfPsbt (p : PSBT) : Prop :=
  wfTx p.tx ∧
  p.inputs.length = p.tx.inputs.length ∧
  p.outputs.length = p.tx.outputs.length ∧
  (∀ r ∈ p.inputs, wfInput r) ∧
  (∀ r ∈ p.outputs, wfOutput r) ∧
  wfEntries (globalEntries p) ∧
  (∀ u ∈ p.unknown, unknownKeyAbove 0 u.1)

instance (p : PSBT) : Decidable (wfPsbt p) := by
  unfold wfPsbt; infer_instance

/-! ## Record round-trips -/

theorem leVal_natToLE (w n : Nat) (h : n < 256 ^ w) : leVal (natToLE w n) = n := by
  induction w generalizing n with
  | zero =>
    have : n = 0 := by simpa using h
    subst this; rfl
  | succ w ih =>
    have hdiv : n / 256 < 256 ^ w := by
      rw [Nat.div_lt_iff_lt_mul (by norm_num : 0 < 256)]
      calc n < 256 ^ (w + 1) := h
        _ = 256 ^ w * 256 := by ring
    simp only [natToLE, leVal, ih (n / 256) hdiv]
    omega

theorem applyInput_tag0 (v : Option Bytes) (es : List Entry) (r : InputRecord)
    (h : r.nonWitnessUtxo = none) :
    applyInputEntries (optEntry 0 v ++ es) r =
      applyInputEntries es { r with nonWitnessUtxo := v } := by
  cases v with
  | none => simp only [optEntry, List.nil_append]; rw [← h]
  | some x => simp [optEntry, applyInputEntries, inputStep, h]

theorem applyInput_tag1 (v : Option Bytes) (es : List Entry) (r : InputRecord)
    (h : r.witnessUtxo = none) :
    applyInputEntries (optEntry 1 v ++ es) r =
      applyInputEntries es { r with witnessUtxo := v } := by
  cases v with
  | none => simp only [optEntry, List.nil_append]; rw [← h]
  | some x => simp [optEntry, applyInputEntries, inputStep, h]

theorem applyInput_tag3 (v : Option Bytes) (es : List Entry) (r : InputRecord)
    (h : r.sighashType = none) :
    applyInputEntries (optEntry 3 v ++ es) r =
      applyInputEntries es { r with sighashType := v } := by
  cases v with
  | none => simp only [optEntry, List.nil_append]; rw [← h]
  | some x => simp [optEntry, applyInputEntries, inputStep, h]

theorem applyInput_tag4 (v : Option Bytes) (es : List Entry) (r : InputRecord)
    (h : r.redeemScript = none) :
    applyInputEntries (optEntry 4 v ++ es) r =
      applyInputEntries es { r with redeemScript := v } := by
  cases v with
  | none => simp only [optEntry, List.nil_append]; rw [← h]
  | some x => simp [optEntry, applyInputEntries, inputStep, h]

theorem applyInput_tag5 (v : Option Bytes) (es : List Entry) (r : InputRecord)
    (h : r.witnessScript = none) :
    applyInputEntries (optEntry 5 v ++ es) r =
      applyInputEntries es { r with witnessScript := v } := by
  cases v with
  | none => simp only [optEntry, List.nil_append]; rw [← h]
  | some x => simp [optEntry, applyInputEntries, inputStep, h]

theorem applyInput_tag7 (v : Option Bytes) (es : List Entry) (r : InputRecord)
    (h : r.finalScriptSig = none) :
    applyInputEntries (optEntry 7 v ++ es) r =
      applyInputEntries es { r with finalScriptSig := v } := by
  cases v with
  | none => simp only [optEntry, List.nil_append]; rw [← h]
  | some x => simp [optEntry, applyInputEntries, inputStep, h]

theorem applyInput_tag8 (v : Option Bytes) (es : List Entry) (r : InputRecord)
    (h : r.finalScriptWitness = none) :
    applyInputEntries (optEntry 8 v ++ es) r =
      applyInputEntries es { r with finalScriptWitness := v } := by
  cases v with
  | none => simp only [optEntry, List.nil_append]; rw [← h]
  | some x => simp [optEntry, applyInputEntries, inputStep, h]

theorem pkBytes_length (pk : Nat) : (pkBytes pk).length = 33 :=
  natToLE_length 33 pk

theorem leVal_pkBytes (pk : Nat) (h : pk < 256 ^ 33) : leVal (pkBytes pk) = pk :=
  leVal_natToLE 33 pk h

theorem applyInput_sigs (ss : List (Nat × Bytes)) (es : List Entry) (r : InputRecord)
    (h : ∀ s ∈ ss, s.1 < 256 ^ 33) :
    applyInputEntries (ss.map (fun s => (2 :: pkBytes s.1, s.2)) ++ es) r =
      applyInputEntries es { r with partialSigs := r.partialSigs ++ ss } := by
  induction ss generalizing r with
  | nil => simp only [List.map_nil, List.nil_append, List.append_nil]
  | cons s ss ih =>
    have hs := h s (List.mem_cons_self s ss)
    have h' : ∀ x ∈ ss, x.1 < 256 ^ 33 := fun x hx => h x (List.mem_cons_of_mem s hx)
    simp only [List.map_cons, List.cons_append, applyInputEntries, inputStep,
      pkBytes_length, leVal_pkBytes s.1 hs]
    norm_num
    rw [ih _ h']
    simp [List.append_assoc]

theorem applyInput_keypaths (ss : List (Nat × Bytes)) (es : List Entry) (r : InputRecord)
    (h : ∀ s ∈ ss, s.1 < 256 ^ 33) :
    applyInputEntries (ss.map (fun s => (6 :: pkBytes s.1, s.2)) ++ es) r =
      applyInputEntries es { r with hdKeypaths := r.hdKeypaths ++ ss } := by
  induction ss generalizing r with
  | nil => simp only [List.map_nil, List.nil_append, List.append_nil]
  | cons s ss ih =>
    have hs := h s (List.mem_cons_self s ss)
    have h' : ∀ x ∈ ss, x.1 < 256 ^ 33 := fun x hx => h x (List.mem_cons_of_mem s hx)
    simp only [List.map_cons, List.cons_append, applyInputEntries, inputStep,
      pkBytes_length, leVal_pkBytes s.1 hs]
    norm_num
    rw [ih _ h']
    simp [List.append_assoc]

theorem applyInput_unknown (us : List Entry) (r : InputRecord)
    (h : ∀ u ∈ us, unknownKeyAbove 8 u.1) :
    applyInputEntries us r = some { r with unknown := r.unknown ++ us } := by
  induction us generalizing r with
  | nil => simp only [applyInputEntries, List.append_nil]
  | cons u us ih =>
    have hu := h u (List.mem_cons_self u us)
    have h' : ∀ x ∈ us, unknownKeyAbove 8 x.1 := fun x hx => h x (List.mem_cons_of_mem u hx)
    match hk : u.1 with
    | [] => rw [hk] at hu; exact absurd hu (by simp [unknownKeyAbove])
    | t :: pk =>
      rw [hk] at hu
      have ht : 8 < t := hu
      simp only [applyInputEntries, inputStep, hk, ht, if_true]
      rw [ih _ h']
      simp [List.append_assoc]

theorem applyInput_encode (r : InputRecord) (h : wfInput r) :
    applyInputEntries (encodeInputRecord r) emptyInput = some r := by
  obtain ⟨_, hsig, hkp, hunk⟩ := h
  unfold encodeInputRecord
  simp only [List.append_assoc]
  rw [applyInput_tag0 _ _ _ rfl, applyInput_tag1 _ _ _ rfl, applyInput_sigs _ _ _ hsig,
    applyInput_tag3 _ _ _ rfl, applyInput_tag4 _ _ _ rfl, applyInput_tag5 _ _ _ rfl,
    applyInput_keypaths _ _ _ hkp, applyInput_tag7 _ _ _ rfl, applyInput_tag8 _ _ _ rfl,
    applyInput_unknown _ _ ?hu]
  case hu => intro u hu; exact hunk u hu
  simp [emptyInput]

theorem applyOutput_tag0 (v : Option Bytes) (es : List Entry) (r : OutputRecord)
    (h : r.redeemScript = none) :
    applyOutputEntries (optEntry 0 v ++ es) r =
      applyOutputEntries es { r with redeemScript := v } := by
  cases v with
  | none => simp only [optEntry, List.nil_append]; rw [← h]
  | some x => simp [optEntry, applyOutputEntries, outputStep, h]

theorem applyOutput_tag1 (v : Option Bytes) (es : List Entry) (r : OutputRecord)
    (h : r.witnessScript = none) :
    applyOutputEntries (optEntry 1 v ++ es) r =
      applyOutputEntries es { r with witnessScript := v } := by
  cases v with
  | none => simp only [optEntry, List.nil_append]; rw [← h]
  | some x => simp [optEntry, applyOutputEntries, outputStep, h]

theorem applyOutput_keypaths (ss : List (Nat × Bytes)) (es : List Entry) (r : OutputRecord)
    (h : ∀ s ∈ ss, s.1 < 256 ^ 33) :
    applyOutputEntries (ss.map (fun s => (2 :: pkBytes s.1, s.2)) ++ es) r =
      applyOutputEntries es { r with hdKeypaths := r.hdKeypaths ++ ss } := by
  induction ss generalizing r with
  | nil => simp only [List.map_nil, List.nil_append, List.append_nil]
  | cons s ss ih =>
    have hs := h s (List.mem_cons_self s ss)
    have h' : ∀ x ∈ ss, x.1 < 256 ^ 33 := fun x hx => h x (List.mem_cons_of_mem s hx)
    simp only [List.map_cons, List.cons_append, applyOutputEntries, outputStep,
      pkBytes_length, leVal_pkBytes s.1 hs]
    norm_num
    rw [ih _ h']
    simp [List.append_assoc]

theorem applyOutput_unknown (us : List Entry) (r : OutputRecord)
    (h : ∀ u ∈ us, unknownKeyAbove 2 u.1) :
    applyOutputEntries us r = some { r with unknown := r.unknown ++ us } := by
  induction us generalizing r with
  | nil => simp only [applyOutputEntries, List.append_nil]
  | cons u us ih =>
    have hu := h u (List.mem_cons_self u us)
    have h' : ∀ x ∈ us, unknownKeyAbove 2 x.1 := fun x hx => h x (List.mem_cons_of_mem u hx)
    match hk : u.1 with
    | [] => rw [hk] at hu; exact absurd hu (by simp [unknownKeyAbove])
    | t :: pk =>
      rw [hk] at hu
      have ht : 2 < t := hu
      simp only [applyOutputEntries, outputStep, hk, ht, if_true]
      rw [ih _ h']
      simp [List.append_assoc]

theorem applyOutput_encode (r : OutputRecord) (h : wfOutput r) :
    applyOutputEntries (encodeOutputRecord r) emptyOutput = some r := by
  obtain ⟨_, hkp, hunk⟩ := h
  unfold encodeOutputRecord
  simp only [List.append_assoc]
  rw [applyOutput_tag0 _ _ _ rfl, applyOutput_tag1 _ _ _ rfl,
    applyOutput_keypaths _ _ _ hkp, applyOutput_unknown _ _ ?hu]
  case hu => intro u hu; exact hunk u hu
  simp [emptyOutput]

theorem applyGlobal_unknown (us : List Entry) (g : GlobalAcc)
    (h : ∀ u ∈ us, unknownKeyAbove 0 u.1) :
    applyGlobalEntries us g = some { g with unknown := g.unknown ++ us } := by
  induction us generalizing g with
  | nil => simp only [applyGlobalEntries, List.append_nil]
  | cons u us ih =>
    have hu := h u (List.mem_cons_self u us)
    have h' : ∀ x ∈ us, unknownKeyAbove 0 x.1 := fun x hx => h x (List.mem_cons_of_mem u hx)
    match hk : u.1 with
    | [] => rw [hk] at hu; exact absurd hu (by simp [unknownKeyAbove])
    | t :: pk =>
      rw [hk] at hu
      have ht : 0 < t := hu
      simp only [applyGlobalEntries, globalStep, hk, ht, if_true]
      rw [ih _ h']
      simp [List.append_assoc]

theorem applyGlobal_encode (p : PSBT) (h : ∀ u ∈ p.unknown, unknownKeyAbove 0 u.1) :
    applyGlobalEntries (globalEntries p) ⟨none, []⟩ =
      some ⟨some (encodeTx p.tx), p.unknown⟩ := by
  unfold globalEntries
  simp only [applyGlobalEntries, globalStep]
  norm_num
  rw [applyGlobal_unknown _ _ h]
  simp

/-! ## Whole-PSBT round-trip -/

theorem encodeEntry_length_pos (e : Entry) : 0 < (encodeEntry e).length := by
  have := compactSizeEnc_length_pos e.1.length
  simp only [encodeEntry, List.length_append]
  omega

theorem encodeEntries_length_ge (es : List Entry) :
    es.length ≤ (encodeEntries es).length := by
  induction es with
  | nil => simp [encodeEntries]
  | cons e es ih =>
    have he := encodeEntry_length_pos e
    have : encodeEntries (e :: es) = encodeEntry e ++ encodeEntries es := by
      simp [encodeEntries]
    rw [this]
    simp only [List.length_cons, List.length_append]
    omega

theorem decodeInputMaps_encode (rs : List InputRecord) (rest : Bytes)
    (h : ∀ r ∈ rs, wfInput r) :
    decodeInputMaps rs.length
        ((rs.map (fun r => encodeKVMap (encodeInputRecord r))).flatten ++ rest) =
      some (rs, rest) := by
  induction rs with
  | nil => rfl
  | cons r rs ih =>
    have hr := h r (List.mem_cons_self r rs)
    have h' : ∀ x ∈ rs, wfInput x := fun x hx => h x (List.mem_cons_of_mem r hx)
    have hstream : (((r :: rs).map (fun x => encodeKVMap (encodeInputRecord x))).flatten ++ rest) =
        encodeKVMap (encodeInputRecord r) ++
          ((rs.map (fun x => encodeKVMap (encodeInputRecord x))).flatten ++ rest) := by
      simp [List.append_assoc]
    have hge := encodeEntries_length_ge (encodeInputRecord r)
    have hfuel : (encodeInputRecord r).length <
        (encodeKVMap (encodeInputRecord r) ++
          ((rs.map (fun x => encodeKVMap (encodeInputRecord x))).flatten ++ rest)).length + 1 := by
      simp only [encodeKVMap, List.length_append]
      omega
    have hde := decodeEntries_encodeKVMap (encodeInputRecord r)
      ((encodeKVMap (encodeInputRecord r) ++
        ((rs.map (fun x => encodeKVMap (encodeInputRecord x))).flatten ++ rest)).length + 1)
      ((rs.map (fun x => encodeKVMap (encodeInputRecord x))).flatten ++ rest) hfuel hr.1
    simp only [List.length_cons, hstream]
    unfold decodeInputMaps
    simp only [hde, applyInput_encode r hr, ih h']

theorem decodeOutputMaps_encode (rs : List OutputRecord) (rest : Bytes)
    (h : ∀ r ∈ rs, wfOutput r) :
    decodeOutputMaps rs.length
        ((rs.map (fun r => encodeKVMap (encodeOutputRecord r))).flatten ++ rest) =
      some (rs, rest) := by
  induction rs with
  | nil => rfl
  | cons r rs ih =>
    have hr := h r (List.mem_cons_self r rs)
    have h' : ∀ x ∈ rs, wfOutput x := fun x hx => h x (List.mem_cons_of_mem r hx)
    have hstream : (((r :: rs).map (fun x => encodeKVMap (encodeOutputRecord x))).flatten ++ rest) =
        encodeKVMap (encodeOutputRecord r) ++
          ((rs.map (fun x => encodeKVMap (encodeOutputRecord x))).flatten ++ rest) := by
      simp [List.append_assoc]
    have hge := encodeEntries_length_ge (encodeOutputRecord r)
    have hfuel : (encodeOutputRecord r).length <
        (encodeKVMap (encodeOutputRecord r) ++
          ((rs.map (fun x => encodeKVMap (encodeOutputRecord x))).flatten ++ rest)).length + 1 := by
      simp only [encodeKVMap, List.length_append]
      omega
    have hde := decodeEntries_encodeKVMap (encodeOutputRecord r)
      ((encodeKVMap (encodeOutputRecord r) ++
        ((rs.map (fun x => encodeKVMap (encodeOutputRecord x))).flatten ++ rest)).length + 1)
      ((rs.map (fun x => encodeKVMap (encodeOutputRecord x))).flatten ++ rest) hfuel hr.1
    simp only [List.length_cons, hstream]
    unfold decodeOutputMaps
    simp only [hde, applyOutput_encode r hr, ih h']

theorem decodePsbt_encodePsbt (p : PSBT) (h : wfPsbt p) :
    decodePsbt (encodePsbt p) = some p := by
  obtain ⟨htx, hni, hno, hins, houts, hglob, hunk⟩ := h
  have hstream : encodePsbt p = psbtMagic ++ (encodeKVMap (globalEntries p) ++
      ((p.inputs.map (fun r => encodeKVMap (encodeInputRecord r))).flatten ++
        ((p.outputs.map (fun r => encodeKVMap (encodeOutputRecord r))).flatten ++ []))) := by
    simp [encodePsbt, List.append_assoc]
  have hmagic := readBytes_append psbtMagic
    (encodeKVMap (globalEntries p) ++
      ((p.inputs.map (fun r => encodeKVMap (encodeInputRecord r))).flatten ++
        ((p.outputs.map (fun r => encodeKVMap (encodeOutputRecord r))).flatten ++ [])))
  have hge := encodeEntries_length_ge (globalEntries p)
  have hfuel : (globalEntries p).length <
      (encodeKVMap (globalEntries p) ++
        ((p.inputs.map (fun r => encodeKVMap (encodeInputRecord r))).flatten ++
          ((p.outputs.map (fun r => encodeKVMap (encodeOutputRecord r))).flatten ++ []))).length + 1 := by
    simp only [encodeKVMap, List.length_append]
    omega
  have hgm := decodeEntries_encodeKVMap (globalEntries p)
    ((encodeKVMap (globalEntries p) ++
      ((p.inputs.map (fun r => encodeKVMap (encodeInputRecord r))).flatten ++
        ((p.outputs.map (fun r => encodeKVMap (encodeOutputRecord r))).flatten ++ []))).length + 1)
    ((p.inputs.map (fun r => encodeKVMap (encodeInputRecord r))).flatten ++
      ((p.outputs.map (fun r => encodeKVMap (encodeOutputRecord r))).flatten ++ []))
    hfuel hglob
  have hga := applyGlobal_encode p hunk
  have htxr := decodeTx_encodeTx p.tx htx
  have hinm : decodeInputMaps p.tx.inputs.length
      ((p.inputs.map (fun r => encodeKVMap (encodeInputRecord r))).flatten ++
        ((p.outputs.map (fun r => encodeKVMap (encodeOutputRecord r))).flatten ++ [])) =
      some (p.inputs,
        (p.outputs.map (fun r => encodeKVMap (encodeOutputRecord r))).flatten ++ []) := by
    rw [← hni]
    exact decodeInputMaps_encode p.inputs _ hins
  have houtm : decodeOutputMaps p.tx.outputs.length
      ((p.outputs.map (fun r => encodeKVMap (encodeOutputRecord r))).flatten ++ []) =
      some (p.outputs, []) := by
    rw [← hno]
    exact decodeOutputMaps_encode p.outputs [] houts
  rw [hstream]
  unfold decodePsbt
  rw [show (5 : Nat) = psbtMagic.length from rfl, hmagic]
  simp only [if_pos rfl, hgm, hga, htxr, hinm, houtm, if_true]

/-- A concrete valid PSBT carrying unknown entries in every map, used to
witness the serialization claims on an explicit input. -/
def samplePsbt : PSBT :=
  ⟨⟨[⟨List.replicate 32 0xaa, 1⟩], [⟨5000, [0x6a, 0x01, 0x00]⟩]⟩,
   [⟨some [1, 2, 3], none, [(2, [0x30, 0x01])], some [1, 0, 0, 0], none, none,
     [(3, [0xde, 0xad])], none, none, [([0x0f, 1], [2, 3, 4])]⟩],
   [⟨none, none, [], [([0x0a], [9])]⟩],
   [([0x0f, 1, 2, 3], [4, 5])]⟩

/-- C1: for every valid PSBT `p`, decoding the encoding of `p` yields `p`
byte-exactly; every map entry with an unknown type tag (in the global map
and in every input and output map) is preserved and re-emitted unchanged, so
re-serializing the decoded PSBT returns the identical serialized bytes (in
particular for a PSBT whose maps hold only unknown fields). -/
theorem claim_C1_roundtrip_preserves_unknown (p : PSBT) (h : wfPsbt p) :
    decodePsbt (encodePsbt p) = some p ∧
    (decodePsbt (encodePsbt p)).map PSBT.unknown = some p.unknown ∧
    (decodePsbt (encodePsbt p)).map (fun q => q.inputs.map InputRecord.unknown) =
      some (p.inputs.map InputRecord.unknown) ∧
    (decodePsbt (encodePsbt p)).map (fun q => q.outputs.map OutputRecord.unknown) =
      some (p.outputs.map OutputRecord.unknown) ∧
    (decodePsbt (encodePsbt p)).map encodePsbt = some (encodePsbt p) := by
  have h1 := decodePsbt_encodePsbt p h
  exact ⟨h1, by rw [h1]; rfl, by rw [h1]; rfl, by rw [h1]; rfl, by rw [h1]; rfl⟩

/-- Witness for C1 at the concrete `samplePsbt`. -/
theorem claim_C1_roundtrip_preserves_unknown_witness :
    wfPsbt samplePsbt ∧ decodePsbt (encodePsbt samplePsbt) = some samplePsbt :=
  ⟨by decide, (claim_C1_roundtrip_preserves_unknown samplePsbt (by decide)).1⟩

/-! ## Keyed field maps and their union

Modelled from the spec (§4.4, §9): the signature, key-origin and unknown
fields are order-independent keyed collections; in canonical form they are
kept strictly sorted by key, so pairwise field union has no left/right
bias.  The union of two such collections takes entries present on only one
side and fails (conflict) on a key present on both sides with different
values. -/

/-- A keyed collection in canonical form: keys strictly increasing. -/
def SortedKeys {K V : Type} [LinearOrder K] (l : List (K × V)) : Prop :=
  l.Pairwise (fun a b => a.1 < b.1)

instance {K V : Type} [LinearOrder K] (l : List (K × V)) : Decidable (SortedKeys l) := by
  unfold SortedKeys; exact List.instDecidablePairwise l

/-- Modelled from the spec: insert one (key, value) pair into a sorted keyed
collection — a pair already present with the same value is a no-op, the same
key with a different value is a conflict (`none`). -/
def insertAssoc {K V : Type} [LinearOrder K] [DecidableEq V] (a : K × V) :
    List (K × V) → Option (List (K × V))
  | [] => some [a]
  | b :: bs =>
    if a.1 < b.1 then some (a :: b :: bs)
    else if b.1 < a.1 then (insertAssoc a bs).map (fun cs => b :: cs)
    else if a.2 = b.2 then some (b :: bs)
    else none

/-- Modelled from the spec: the pairwise field union of two keyed
collections — for each key take the value present on either side, failing on
a key carried by both sides with different values. -/
def mergeAssoc {K V : Type} [LinearOrder K] [DecidableEq V] :
    List (K × V) → List (K × V) → Option (List (K × V))
  | [], ys => some ys
  | x :: xs, ys => (insertAssoc x ys).bind (mergeAssoc xs)

theorem insertAssoc_mem {K V : Type} [LinearOrder K] [DecidableEq V] (a : K × V)
    (ys : List (K × V)) : ∀ (zs : List (K × V)), insertAssoc a ys = some zs →
      ∀ c, c ∈ zs ↔ c = a ∨ c ∈ ys := by
  induction ys with
  | nil =>
    intro zs h c
    simp only [insertAssoc, Option.some.injEq] at h
    subst h; simp
  | cons b bs ih =>
    intro zs h c
    unfold insertAssoc at h
    split_ifs at h with h1 h2 h3
    · obtain rfl := Option.some.inj h
      simp only [List.mem_cons]
    · rw [Option.map_eq_some'] at h
      obtain ⟨cs, hcs, rfl⟩ := h
      have him := ih cs hcs c
      simp only [List.mem_cons, him]
      tauto
    · obtain rfl := Option.some.inj h
      have hab : a = b := by
        have hk : a.1 = b.1 := le_antisymm (le_of_not_lt h2) (le_of_not_lt h1)
        exact Prod.ext hk h3
      subst hab
      simp only [List.mem_cons]
      tauto

theorem insertAssoc_sorted {K V : Type} [LinearOrder K] [DecidableEq V] (a : K × V)
    (ys : List (K × V)) : ∀ (zs : List (K × V)), SortedKeys ys →
      insertAssoc a ys = some zs → SortedKeys zs := by
  induction ys with
  | nil =>
    intro zs _ h
    simp only [insertAssoc, Option.some.injEq] at h
    subst h; simp [SortedKeys]
  | cons b bs ih =>
    intro zs hs h
    rw [SortedKeys, List.pairwise_cons] at hs
    obtain ⟨hb, hbs⟩ := hs
    unfold insertAssoc at h
    split_ifs at h with h1 h2 h3
    · obtain rfl := Option.some.inj h
      rw [SortedKeys, List.pairwise_cons]
      refine ⟨?_, ?_⟩
      · intro x hx
        rcases List.mem_cons.mp hx with rfl | hx
        · exact h1
        · exact h1.trans (hb x hx)
      · rw [List.pairwise_cons]; exact ⟨hb, hbs⟩
    · rw [Option.map_eq_some'] at h
      obtain ⟨cs, hcs, rfl⟩ := h
      rw [SortedKeys, List.pairwise_cons]
      refine ⟨?_, ih cs hbs hcs⟩
      intro x hx
      rcases (insertAssoc_mem a bs cs hcs x).mp hx with rfl | hx
      · exact h2
      · exact hb x hx
    · obtain rfl := Option.some.inj h
      rw [SortedKeys, List.pairwise_cons]; exact ⟨hb, hbs⟩

theorem insertAssoc_isSome {K V : Type} [LinearOrder K] [DecidableEq V] (a : K × V)
    (ys : List (K × V)) (h : ∀ b ∈ ys, a.1 = b.1 → a.2 = b.2) :
    (insertAssoc a ys).isSome := by
  induction ys with
  | nil => simp [insertAssoc]
  | cons b bs ih =>
    unfold insertAssoc
    split_ifs with h1 h2 h3
    · simp
    · simpa using ih (fun x hx => h x (List.mem_cons_of_mem b hx))
    · simp
    · have hk : a.1 = b.1 := le_antisymm (le_of_not_lt h2) (le_of_not_lt h1)
      exact absurd (h b (List.mem_cons_self b bs) hk) h3

theorem insertAssoc_compat {K V : Type} [LinearOrder K] [DecidableEq V] (a : K × V)
    (ys : List (K × V)) : ∀ (zs : List (K × V)), SortedKeys ys →
      insertAssoc a ys = some zs → ∀ b ∈ ys, a.1 = b.1 → a.2 = b.2 := by
  induction ys with
  | nil => intro zs _ _ b hb; exact absurd hb (List.not_mem_nil b)
  | cons b bs ih =>
    intro zs hs h b' hb' hk
    rw [SortedKeys, List.pairwise_cons] at hs
    obtain ⟨hb, hbs⟩ := hs
    unfold insertAssoc at h
    split_ifs at h with h1 h2 h3
    · rcases List.mem_cons.mp hb' with rfl | hb'
      · exact absurd hk (ne_of_lt h1)
      · exact absurd hk (ne_of_lt (h1.trans (hb b' hb')))
    · rcases List.mem_cons.mp hb' with rfl | hb'
      · exact absurd hk (ne_of_gt h2)
      · rw [Option.map_eq_some'] at h
        obtain ⟨cs, hcs, rfl⟩ := h
        exact ih cs hbs hcs b' hb' hk
    · rcases List.mem_cons.mp hb' with rfl | hb'
      · exact h3
      · have hk1 : a.1 = b.1 := le_antisymm (le_of_not_lt h2) (le_of_not_lt h1)
        exact absurd hk (hk1 ▸ ne_of_lt (hb b' hb'))

/-- Cross-compatibility of two keyed collections: any key carried by both
sides carries the same value. -/
def CompatMaps {K V : Type} (xs ys : List (K × V)) : Prop :=
  ∀ a ∈ xs, ∀ b ∈ ys, a.1 = b.1 → a.2 = b.2

instance {K V : Type} [DecidableEq K] [DecidableEq V] (xs ys : List (K × V)) :
    Decidable (CompatMaps xs ys) := by
  unfold CompatMaps; infer_instance

theorem mergeAssoc_mem {K V : Type} [LinearOrder K] [DecidableEq V]
    (xs : List (K × V)) : ∀ (ys zs : List (K × V)), mergeAssoc xs ys = some zs →
      ∀ c, c ∈ zs ↔ c ∈ xs ∨ c ∈ ys := by
  induction xs with
  | nil =>
    intro ys zs h c
    obtain rfl := Option.some.inj h
    simp
  | cons x xs ih =>
    intro ys zs h c
    unfold mergeAssoc at h
    rw [Option.bind_eq_some] at h
    obtain ⟨ws, hws, hm⟩ := h
    have h1 := ih ws zs hm c
    have h2 := insertAssoc_mem x ys ws hws c
    simp only [List.mem_cons, h1, h2]
    tauto

theorem mergeAssoc_sorted {K V : Type} [LinearOrder K] [DecidableEq V]
    (xs : List (K × V)) : ∀ (ys zs : List (K × V)), SortedKeys ys →
      mergeAssoc xs ys = some zs → SortedKeys zs := by
  induction xs with
  | nil =>
    intro ys zs hy h
    obtain rfl := Option.some.inj h
    exact hy
  | cons x xs ih =>
    intro ys zs hy h
    unfold mergeAssoc at h
    rw [Option.bind_eq_some] at h
    obtain ⟨ws, hws, hm⟩ := h
    exact ih ws zs (insertAssoc_sorted x ys ws hy hws) hm

theorem mergeAssoc_isSome {K V : Type} [LinearOrder K] [DecidableEq V]
    (xs : List (K × V)) : ∀ (ys : List (K × V)), SortedKeys xs → CompatMaps xs ys →
      (mergeAssoc xs ys).isSome := by
  induction xs with
  | nil => intro ys _ _; simp [mergeAssoc]
  | cons x xs ih =>
    intro ys hx hc
    rw [SortedKeys, List.pairwise_cons] at hx
    obtain ⟨hxh, hxs⟩ := hx
    have hi := insertAssoc_isSome x ys (fun b hb => hc x (List.mem_cons_self x xs) b hb)
    rw [Option.isSome_iff_exists] at hi
    obtain ⟨ws, hws⟩ := hi
    unfold mergeAssoc
    rw [hws, Option.some_bind]
    refine ih ws hxs ?_
    intro a ha b hb hk
    rcases (insertAssoc_mem x ys ws hws b).mp hb with rfl | hb
    · exact absurd hk (ne_of_gt (hxh a ha))
    · exact hc a (List.mem_cons_of_mem x ha) b hb hk

theorem mergeAssoc_compat {K V : Type} [LinearOrder K] [DecidableEq V]
    (xs : List (K × V)) : ∀ (ys zs : List (K × V)), SortedKeys xs → SortedKeys ys →
      mergeAssoc xs ys = some zs → CompatMaps xs ys := by
  induction xs with
  | nil => intro ys zs _ _ _ a ha; exact absurd ha (List.not_mem_nil a)
  | cons x xs ih =>
    intro ys zs hx hy h a ha b hb hk
    rw [SortedKeys, List.pairwise_cons] at hx
    obtain ⟨hxh, hxs⟩ := hx
    unfold mergeAssoc at h
    rw [Option.bind_eq_some] at h
    obtain ⟨ws, hws, hm⟩ := h
    rcases List.mem_cons.mp ha with rfl | ha
    · exact insertAssoc_compat a ys ws hy hws b hb hk
    · exact ih ws zs hxs (insertAssoc_sorted x ys ws hy hws) hm a ha b
        ((insertAssoc_mem x ys ws hws b).mpr (Or.inr hb)) hk

theorem sortedKeys_ext {K V : Type} [LinearOrder K]
    (l1 : List (K × V)) : ∀ (l2 : List (K × V)), SortedKeys l1 → SortedKeys l2 →
      (∀ c, c ∈ l1 ↔ c ∈ l2) → l1 = l2 := by
  induction l1 with
  | nil =>
    intro l2 _ _ hm
    cases l2 with
    | nil => rfl
    | cons b bs => exact absurd ((hm b).mpr (List.mem_cons_self b bs)) (List.not_mem_nil b)
  | cons a as ih =>
    intro l2 h1 h2 hm
    cases l2 with
    | nil => exact absurd ((hm a).mp (List.mem_cons_self a as)) (List.not_mem_nil a)
    | cons b bs =>
      rw [SortedKeys, List.pairwise_cons] at h1 h2
      obtain ⟨ha, has⟩ := h1
      obtain ⟨hb, hbs⟩ := h2
      have hab : a = b := by
        rcases List.mem_cons.mp ((hm a).mp (List.mem_cons_self a as)) with rfl | hax
        · rfl
        · rcases List.mem_cons.mp ((hm b).mpr (List.mem_cons_self b bs)) with rfl | hbx
          · rfl
          · exact absurd (hb a hax) (not_lt_of_gt (ha b hbx))
      subst hab
      have hm2 : ∀ c, c ∈ as ↔ c ∈ bs := by
        intro c
        constructor
        · intro hc
          rcases List.mem_cons.mp ((hm c).mp (List.mem_cons_of_mem a hc)) with rfl | hcb
          · exact absurd (ha c hc) (lt_irrefl c.1)
          · exact hcb
        · intro hc
          rcases List.mem_cons.mp ((hm c).mpr (List.mem_cons_of_mem a hc)) with rfl | hca
          · exact absurd (hb c hc) (lt_irrefl c.1)
          · exact hca
      rw [ih bs has hbs hm2]

theorem compatMaps_symm {K V : Type} {xs ys : List (K × V)} (h : CompatMaps xs ys) :
    CompatMaps ys xs :=
  fun b hb a ha hk => (h a ha b hb hk.symm).symm

theorem mergeAssoc_comm {K V : Type} [LinearOrder K] [DecidableEq V]
    (xs ys : List (K × V)) (hx : SortedKeys xs) (hy : SortedKeys ys) :
    mergeAssoc xs ys = mergeAssoc ys xs := by
  by_cases hc : CompatMaps xs ys
  · have h1 := mergeAssoc_isSome xs ys hx hc
    have h2 := mergeAssoc_isSome ys xs hy (compatMaps_symm hc)
    rw [Option.isSome_iff_exists] at h1 h2
    obtain ⟨z1, hz1⟩ := h1
    obtain ⟨z2, hz2⟩ := h2
    rw [hz1, hz2]
    have hs1 := mergeAssoc_sorted xs ys z1 hy hz1
    have hs2 := mergeAssoc_sorted ys xs z2 hx hz2
    have : z1 = z2 := by
      refine sortedKeys_ext z1 z2 hs1 hs2 ?_
      intro c
      rw [mergeAssoc_mem xs ys z1 hz1 c, mergeAssoc_mem ys xs z2 hz2 c]
      tauto
    rw [this]
  · have e1 : mergeAssoc xs ys = none := by
      cases h : mergeAssoc xs ys with
      | none => rfl
      | some z => exact absurd (mergeAssoc_compat xs ys z hx hy h) hc
    have e2 : mergeAssoc ys xs = none := by
      cases h : mergeAssoc ys xs with
      | none => rfl
      | some z => exact absurd (compatMaps_symm (mergeAssoc_compat ys xs z hy hx h)) hc
    rw [e1, e2]

theorem mergeAssoc_assoc {K V : Type} [LinearOrder K] [DecidableEq V]
    (xs ys zs : List (K × V)) (hx : SortedKeys xs) (hy : SortedKeys ys)
    (hz : SortedKeys zs) :
    (mergeAssoc xs ys).bind (fun w => mergeAssoc w zs) =
      (mergeAssoc ys zs).bind (fun w => mergeAssoc xs w) := by
  have keyL : ∀ l, (mergeAssoc xs ys).bind (fun w => mergeAssoc w zs) = some l →
      CompatMaps xs ys ∧ CompatMaps xs zs ∧ CompatMaps ys zs := by
    intro l hl
    rw [Option.bind_eq_some] at hl
    obtain ⟨w1, hw1, hw1z⟩ := hl
    have cxy := mergeAssoc_compat xs ys w1 hx hy hw1
    have hsw1 := mergeAssoc_sorted xs ys w1 hy hw1
    have cw1z := mergeAssoc_compat w1 zs l hsw1 hz hw1z
    refine ⟨cxy, ?_, ?_⟩
    · intro a ha b hb hk
      exact cw1z a ((mergeAssoc_mem xs ys w1 hw1 a).mpr (Or.inl ha)) b hb hk
    · intro a ha b hb hk
      exact cw1z a ((mergeAssoc_mem xs ys w1 hw1 a).mpr (Or.inr ha)) b hb hk
  have keyR : ∀ l, (mergeAssoc ys zs).bind (fun w => mergeAssoc xs w) = some l →
      CompatMaps xs ys ∧ CompatMaps xs zs ∧ CompatMaps ys zs := by
    intro l hl
    rw [Option.bind_eq_some] at hl
    obtain ⟨w2, hw2, hxw2⟩ := hl
    have cyz := mergeAssoc_compat ys zs w2 hy hz hw2
    have hsw2 := mergeAssoc_sorted ys zs w2 hz hw2
    have cxw2 := mergeAssoc_compat xs w2 l hx hsw2 hxw2
    refine ⟨?_, ?_, cyz⟩
    · intro a ha b hb hk
      exact cxw2 a ha b ((mergeAssoc_mem ys zs w2 hw2 b).mpr (Or.inl hb)) hk
    · intro a ha b hb hk
      exact cxw2 a ha b ((mergeAssoc_mem ys zs w2 hw2 b).mpr (Or.inr hb)) hk
  by_cases hP : CompatMaps xs ys ∧ CompatMaps xs zs ∧ CompatMaps ys zs
  · obtain ⟨cxy, cxz, cyz⟩ := hP
    obtain ⟨w1, hw1⟩ := Option.isSome_iff_exists.mp (mergeAssoc_isSome xs ys hx cxy)
    have hsw1 := mergeAssoc_sorted xs ys w1 hy hw1
    have cw1z : CompatMaps w1 zs := by
      intro a ha b hb hk
      rcases (mergeAssoc_mem xs ys w1 hw1 a).mp ha with ha | ha
      · exact cxz a ha b hb hk
      · exact cyz a ha b hb hk
    obtain ⟨l, hl⟩ := Option.isSome_iff_exists.mp (mergeAssoc_isSome w1 zs hsw1 cw1z)
    obtain ⟨w2, hw2⟩ := Option.isSome_iff_exists.mp (mergeAssoc_isSome ys zs hy cyz)
    have hsw2 := mergeAssoc_sorted ys zs w2 hz hw2
    have cxw2 : CompatMaps xs w2 := by
      intro a ha b hb hk
      rcases (mergeAssoc_mem ys zs w2 hw2 b).mp hb with hb | hb
      · exact cxy a ha b hb hk
      · exact cxz a ha b hb hk
    obtain ⟨r, hr⟩ := Option.isSome_iff_exists.mp (mergeAssoc_isSome xs w2 hx cxw2)
    rw [hw1, hw2, Option.some_bind, Option.some_bind, hl, hr]
    have hsl := mergeAssoc_sorted w1 zs l hz hl
    have hsr := mergeAssoc_sorted xs w2 r hsw2 hr
    have : l = r := by
      refine sortedKeys_ext l r hsl hsr ?_
      intro c
      rw [mergeAssoc_mem w1 zs l hl c, mergeAssoc_mem xs w2 r hr c,
        mergeAssoc_mem xs ys w1 hw1 c, mergeAssoc_mem ys zs w2 hw2 c]
      tauto
    rw [this]
  · have e1 : (mergeAssoc xs ys).bind (fun w => mergeAssoc w zs) = none := by
      cases h : (mergeAssoc xs ys).bind (fun w => mergeAssoc w zs) with
      | none => rfl
      | some l => exact absurd (keyL l h) hP
    have e2 : (mergeAssoc ys zs).bind (fun w => mergeAssoc xs w) = none := by
      cases h : (mergeAssoc ys zs).bind (fun w => mergeAssoc xs w) with
      | none => rfl
      | some l => exact absurd (keyR l h) hP
    rw [e1, e2]

/-! ## Combining records

Modelled from the spec (§4.4): `combine` unions two PSBTs that describe the
same transaction; for each index the two `InputRecord`s are unioned
field-by-field — a field present in only one side is taken, a field present
in both with different values is a conflict. -/

/-- Modelled from the spec: union of one optional single-valued field. -/
def mergeOpt {V : Type} [DecidableEq V] : Option V → Option V → Option (Option V)
  | none, b => some b
  | some a, none => some (some a)
  | some a, some b => if a = b then some (some a) else none

theorem mergeOpt_comm {V : Type} [DecidableEq V] (x y : Option V) :
    mergeOpt x y = mergeOpt y x := by
  cases x with
  | none => cases y <;> rfl
  | some a =>
    cases y with
    | none => rfl
    | some b =>
      by_cases h : a = b
      · subst h; rfl
      · simp [mergeOpt, h, Ne.symm h]

theorem mergeOpt_assoc {V : Type} [DecidableEq V] (x y z : Option V) :
    (mergeOpt x y).bind (fun w => mergeOpt w z) =
      (mergeOpt y z).bind (fun w => mergeOpt x w) := by
  cases x with
  | none =>
    cases y with
    | none => cases z <;> rfl
    | some b =>
      cases z with
      | none => rfl
      | some c =>
        by_cases h : b = c
        · subst h; simp [mergeOpt]
        · simp [mergeOpt, h]
  | some a =>
    cases y with
    | none =>
      cases z with
      | none => rfl
      | some c => rfl
    | some b =>
      cases z with
      | none =>
        by_cases h : a = b
        · subst h; simp [mergeOpt]
        · simp [mergeOpt, h]
      | some c =>
        by_cases hab : a = b
        · subst hab
          by_cases hac : a = c
          · subst hac; simp [mergeOpt]
          · simp [mergeOpt, hac]
        · by_cases hbc : b = c
          · subst hbc; simp [mergeOpt, hab]
          · simp [mergeOpt, hab, hbc]

/-- Modelled from the spec (§4.4): field-by-field union of the two
`InputRecord`s at one input index. -/
def combineInput (a b : InputRecord) : Option InputRecord :=
  (mergeOpt a.nonWitnessUtxo b.nonWitnessUtxo).bind fun nw =>
  (mergeOpt a.witnessUtxo b.witnessUtxo).bind fun wu =>
  (mergeAssoc a.partialSigs b.partialSigs).bind fun ps =>
  (mergeOpt a.sighashType b.sighashType).bind fun sh =>
  (mergeOpt a.redeemScript b.redeemScript).bind fun rs =>
  (mergeOpt a.witnessScript b.witnessScript).bind fun ws =>
  (mergeAssoc a.hdKeypaths b.hdKeypaths).bind fun kp =>
  (mergeOpt a.finalScriptSig b.finalScriptSig).bind fun fs =>
  (mergeOpt a.finalScriptWitness b.finalScriptWitness).bind fun fw =>
  (mergeAssoc a.unknown b.unknown).bind fun un =>
  some ⟨nw, wu, ps, sh, rs, ws, kp, fs, fw, un⟩

/-- Modelled from the spec (§4.4): field-by-field union of the two
`OutputRecord`s at one output index. -/
def combineOutput (a b : OutputRecord) : Option OutputRecord :=
  (mergeOpt a.redeemScript b.redeemScript).bind fun rs =>
  (mergeOpt a.witnessScript b.witnessScript).bind fun ws =>
  (mergeAssoc a.hdKeypaths b.hdKeypaths).bind fun kp =>
  (mergeAssoc a.unknown b.unknown).bind fun un =>
  some ⟨rs, ws, kp, un⟩

/-- An input record in canonical form: its keyed collections are strictly
sorted by key. -/
def sortedInput (r : InputRecord) : Prop :=
  SortedKeys r.partialSigs ∧ SortedKeys r.hdKeypaths ∧ SortedKeys r.unknown

instance (r : InputRecord) : Decidable (sortedInput r) := by
  unfold sortedInput; infer_instance

/-- An output record in canonical form. -/
def sortedOutput (r : OutputRecord) : Prop :=
  SortedKeys r.hdKeypaths ∧ SortedKeys r.unknown

instance (r : OutputRecord) : Decidable (sortedOutput r) := by
  unfold sortedOutput; infer_instance

theorem combineInput_char (a b w : InputRecord) (h : combineInput a b = some w) :
    mergeOpt a.nonWitnessUtxo b.nonWitnessUtxo = some w.nonWitnessUtxo ∧
    mergeOpt a.witnessUtxo b.witnessUtxo = some w.witnessUtxo ∧
    mergeAssoc a.partialSigs b.partialSigs = some w.partialSigs ∧
    mergeOpt a.sighashType b.sighashType = some w.sighashType ∧
    mergeOpt a.redeemScript b.redeemScript = some w.redeemScript ∧
    mergeOpt a.witnessScript b.witnessScript = some w.witnessScript ∧
    mergeAssoc a.hdKeypaths b.hdKeypaths = some w.hdKeypaths ∧
    mergeOpt a.finalScriptSig b.finalScriptSig = some w.finalScriptSig ∧
    mergeOpt a.finalScriptWitness b.finalScriptWitness = some w.finalScriptWitness ∧
    mergeAssoc a.unknown b.unknown = some w.unknown := by
  unfold combineInput at h
  simp only [Option.bind_eq_some] at h
  obtain ⟨f1, h1, f2, h2, f3, h3, f4, h4, f5, h5, f6, h6, f7, h7, f8, h8, f9, h9,
    f10, h10, hw⟩ := h
  obtain rfl : (⟨f1, f2, f3, f4, f5, f6, f7, f8, f9, f10⟩ : InputRecord) = w :=
    Option.some.inj hw
  exact ⟨h1, h2, h3, h4, h5, h6, h7, h8, h9, h10⟩

theorem combineOutput_char (a b w : OutputRecord) (h : combineOutput a b = some w) :
    mergeOpt a.redeemScript b.redeemScript = some w.redeemScript ∧
    mergeOpt a.witnessScript b.witnessScript = some w.witnessScript ∧
    mergeAssoc a.hdKeypaths b.hdKeypaths = some w.hdKeypaths ∧
    mergeAssoc a.unknown b.unknown = some w.unknown := by
  unfold combineOutput at h
  simp only [Option.bind_eq_some] at h
  obtain ⟨f1, h1, f2, h2, f3, h3, f4, h4, hw⟩ := h
  obtain rfl : (⟨f1, f2, f3, f4⟩ : OutputRecord) = w := Option.some.inj hw
  exact ⟨h1, h2, h3, h4⟩

theorem combineInput_mk (a b : InputRecord)
    (f1 : Option Bytes) (f2 : Option Bytes) (f3 : List (Nat × Bytes))
    (f4 : Option Bytes) (f5 : Option Bytes) (f6 : Option Bytes)
    (f7 : List (Nat × Bytes)) (f8 : Option Bytes) (f9 : Option Bytes)
    (f10 : List Entry)
    (h1 : mergeOpt a.nonWitnessUtxo b.nonWitnessUtxo = some f1)
    (h2 : mergeOpt a.witnessUtxo b.witnessUtxo = some f2)
    (h3 : mergeAssoc a.partialSigs b.partialSigs = some f3)
    (h4 : mergeOpt a.sighashType b.sighashType = some f4)
    (h5 : mergeOpt a.redeemScript b.redeemScript = some f5)
    (h6 : mergeOpt a.witnessScript b.witnessScript = some f6)
    (h7 : mergeAssoc a.hdKeypaths b.hdKeypaths = some f7)
    (h8 : mergeOpt a.finalScriptSig b.finalScriptSig = some f8)
    (h9 : mergeOpt a.finalScriptWitness b.finalScriptWitness = some f9)
    (h10 : mergeAssoc a.unknown b.unknown = some f10) :
    combineInput a b = some ⟨f1, f2, f3, f4, f5, f6, f7, f8, f9, f10⟩ := by
  unfold combineInput
  rw [h1, Option.some_bind, h2, Option.some_bind, h3, Option.some_bind,
    h4, Option.some_bind, h5, Option.some_bind, h6, Option.some_bind,
    h7, Option.some_bind, h8, Option.some_bind, h9, Option.some_bind,
    h10, Option.some_bind]

theorem combineOutput_mk (a b : OutputRecord)
    (f1 : Option Bytes) (f2 : Option Bytes) (f3 : List (Nat × Bytes))
    (f4 : List Entry)
    (h1 : mergeOpt a.redeemScript b.redeemScript = some f1)
    (h2 : mergeOpt a.witnessScript b.witnessScript = some f2)
    (h3 : mergeAssoc a.hdKeypaths b.hdKeypaths = some f3)
    (h4 : mergeAssoc a.unknown b.unknown = some f4) :
    combineOutput a b = some ⟨f1, f2, f3, f4⟩ := by
  unfold combineOutput
  rw [h1, Option.some_bind, h2, Option.some_bind, h3, Option.some_bind,
    h4, Option.some_bind]

theorem combineInput_congr (a b a2 b2 : InputRecord)
    (h1 : mergeOpt a.nonWitnessUtxo b.nonWitnessUtxo =
      mergeOpt a2.nonWitnessUtxo b2.nonWitnessUtxo)
    (h2 : mergeOpt a.witnessUtxo b.witnessUtxo = mergeOpt a2.witnessUtxo b2.witnessUtxo)
    (h3 : mergeAssoc a.partialSigs b.partialSigs = mergeAssoc a2.partialSigs b2.partialSigs)
    (h4 : mergeOpt a.sighashType b.sighashType = mergeOpt a2.sighashType b2.sighashType)
    (h5 : mergeOpt a.redeemScript b.redeemScript = mergeOpt a2.redeemScript b2.redeemScript)
    (h6 : mergeOpt a.witnessScript b.witnessScript = mergeOpt a2.witnessScript b2.witnessScript)
    (h7 : mergeAssoc a.hdKeypaths b.hdKeypaths = mergeAssoc a2.hdKeypaths b2.hdKeypaths)
    (h8 : mergeOpt a.finalScriptSig b.finalScriptSig =
      mergeOpt a2.finalScriptSig b2.finalScriptSig)
    (h9 : mergeOpt a.finalScriptWitness b.finalScriptWitness =
      mergeOpt a2.finalScriptWitness b2.finalScriptWitness)
    (h10 : mergeAssoc a.unknown b.unknown = mergeAssoc a2.unknown b2.unknown) :
    combineInput a b = combineInput a2 b2 := by
  unfold combineInput
  rw [h1, h2, h3, h4, h5, h6, h7, h8, h9, h10]

theorem combineOutput_congr (a b a2 b2 : OutputRecord)
    (h1 : mergeOpt a.redeemScript b.redeemScript = mergeOpt a2.redeemScript b2.redeemScript)
    (h2 : mergeOpt a.witnessScript b.witnessScript = mergeOpt a2.witnessScript b2.witnessScript)
    (h3 : mergeAssoc a.hdKeypaths b.hdKeypaths = mergeAssoc a2.hdKeypaths b2.hdKeypaths)
    (h4 : mergeAssoc a.unknown b.unknown = mergeAssoc a2.unknown b2.unknown) :
    combineOutput a b = combineOutput a2 b2 := by
  unfold combineOutput
  rw [h1, h2, h3, h4]

theorem combineInput_comm (a b : InputRecord) (ha : sortedInput a) (hb : sortedInput b) :
    combineInput a b = combineInput b a := by
  obtain ⟨ha1, ha2, ha3⟩ := ha
  obtain ⟨hb1, hb2, hb3⟩ := hb
  unfold combineInput
  rw [mergeOpt_comm a.nonWitnessUtxo b.nonWitnessUtxo,
    mergeOpt_comm a.witnessUtxo b.witnessUtxo,
    mergeAssoc_comm a.partialSigs b.partialSigs ha1 hb1,
    mergeOpt_comm a.sighashType b.sighashType,
    mergeOpt_comm a.redeemScript b.redeemScript,
    mergeOpt_comm a.witnessScript b.witnessScript,
    mergeAssoc_comm a.hdKeypaths b.hdKeypaths ha2 hb2,
    mergeOpt_comm a.finalScriptSig b.finalScriptSig,
    mergeOpt_comm a.finalScriptWitness b.finalScriptWitness,
    mergeAssoc_comm a.unknown b.unknown ha3 hb3]

theorem combineOutput_comm (a b : OutputRecord) (ha : sortedOutput a)
    (hb : sortedOutput b) : combineOutput a b = combineOutput b a := by
  obtain ⟨ha1, ha2⟩ := ha
  obtain ⟨hb1, hb2⟩ := hb
  unfold combineOutput
  rw [mergeOpt_comm a.redeemScript b.redeemScript,
    mergeOpt_comm a.witnessScript b.witnessScript,
    mergeAssoc_comm a.hdKeypaths b.hdKeypaths ha1 hb1,
    mergeAssoc_comm a.unknown b.unknown ha2 hb2]

theorem combineInput_assoc (a b c : InputRecord) (ha : sortedInput a)
    (hb : sortedInput b) (hc : sortedInput c) :
    (combineInput a b).bind (fun w => combineInput w c) =
      (combineInput b c).bind (fun w => combineInput a w) := by
  obtain ⟨ha1, ha2, ha3⟩ := ha
  obtain ⟨hb1, hb2, hb3⟩ := hb
  obtain ⟨hc1, hc2, hc3⟩ := hc
  have A1 := mergeOpt_assoc a.nonWitnessUtxo b.nonWitnessUtxo c.nonWitnessUtxo
  have A2 := mergeOpt_assoc a.witnessUtxo b.witnessUtxo c.witnessUtxo
  have A3 := mergeAssoc_assoc a.partialSigs b.partialSigs c.partialSigs ha1 hb1 hc1
  have A4 := mergeOpt_assoc a.sighashType b.sighashType c.sighashType
  have A5 := mergeOpt_assoc a.redeemScript b.redeemScript c.redeemScript
  have A6 := mergeOpt_assoc a.witnessScript b.witnessScript c.witnessScript
  have A7 := mergeAssoc_assoc a.hdKeypaths b.hdKeypaths c.hdKeypaths ha2 hb2 hc2
  have A8 := mergeOpt_assoc a.finalScriptSig b.finalScriptSig c.finalScriptSig
  have A9 := mergeOpt_assoc a.finalScriptWitness b.finalScriptWitness c.finalScriptWitness
  have A10 := mergeAssoc_assoc a.unknown b.unknown c.unknown ha3 hb3 hc3
  cases hab : combineInput a b with
  | none =>
    rw [Option.none_bind]
    cases hbc : combineInput b c with
    | none => rw [Option.none_bind]
    | some w2 =>
      rw [Option.some_bind]
      obtain ⟨g1, g2, g3, g4, g5, g6, g7, g8, g9, g10⟩ := combineInput_char b c w2 hbc
      cases haw : combineInput a w2 with
      | none => rfl
      | some r =>
        exfalso
        obtain ⟨k1, k2, k3, k4, k5, k6, k7, k8, k9, k10⟩ := combineInput_char a w2 r haw
        rw [g1, Option.some_bind, k1] at A1
        rw [g2, Option.some_bind, k2] at A2
        rw [g3, Option.some_bind, k3] at A3
        rw [g4, Option.some_bind, k4] at A4
        rw [g5, Option.some_bind, k5] at A5
        rw [g6, Option.some_bind, k6] at A6
        rw [g7, Option.some_bind, k7] at A7
        rw [g8, Option.some_bind, k8] at A8
        rw [g9, Option.some_bind, k9] at A9
        rw [g10, Option.some_bind, k10] at A10
        obtain ⟨t1, ht1, _⟩ := Option.bind_eq_some.mp A1
        obtain ⟨t2, ht2, _⟩ := Option.bind_eq_some.mp A2
        obtain ⟨t3, ht3, _⟩ := Option.bind_eq_some.mp A3
        obtain ⟨t4, ht4, _⟩ := Option.bind_eq_some.mp A4
        obtain ⟨t5, ht5, _⟩ := Option.bind_eq_some.mp A5
        obtain ⟨t6, ht6, _⟩ := Option.bind_eq_some.mp A6
        obtain ⟨t7, ht7, _⟩ := Option.bind_eq_some.mp A7
        obtain ⟨t8, ht8, _⟩ := Option.bind_eq_some.mp A8
        obtain ⟨t9, ht9, _⟩ := Option.bind_eq_some.mp A9
        obtain ⟨t10, ht10, _⟩ := Option.bind_eq_some.mp A10
        have hmk := combineInput_mk a b t1 t2 t3 t4 t5 t6 t7 t8 t9 t10
          ht1 ht2 ht3 ht4 ht5 ht6 ht7 ht8 ht9 ht10
        rw [hab] at hmk
        exact Option.noConfusion hmk
  | some w1 =>
    rw [Option.some_bind]
    obtain ⟨e1, e2, e3, e4, e5, e6, e7, e8, e9, e10⟩ := combineInput_char a b w1 hab
    cases hbc : combineInput b c with
    | none =>
      rw [Option.none_bind]
      cases hw1c : combineInput w1 c with
      | none => rfl
      | some r =>
        exfalso
        obtain ⟨k1, k2, k3, k4, k5, k6, k7, k8, k9, k10⟩ := combineInput_char w1 c r hw1c
        rw [e1, Option.some_bind, k1] at A1
        rw [e2, Option.some_bind, k2] at A2
        rw [e3, Option.some_bind, k3] at A3
        rw [e4, Option.some_bind, k4] at A4
        rw [e5, Option.some_bind, k5] at A5
        rw [e6, Option.some_bind, k6] at A6
        rw [e7, Option.some_bind, k7] at A7
        rw [e8, Option.some_bind, k8] at A8
        rw [e9, Option.some_bind, k9] at A9
        rw [e10, Option.some_bind, k10] at A10
        obtain ⟨t1, ht1, _⟩ := Option.bind_eq_some.mp A1.symm
        obtain ⟨t2, ht2, _⟩ := Option.bind_eq_some.mp A2.symm
        obtain ⟨t3, ht3, _⟩ := Option.bind_eq_some.mp A3.symm
        obtain ⟨t4, ht4, _⟩ := Option.bind_eq_some.mp A4.symm
        obtain ⟨t5, ht5, _⟩ := Option.bind_eq_some.mp A5.symm
        obtain ⟨t6, ht6, _⟩ := Option.bind_eq_some.mp A6.symm
        obtain ⟨t7, ht7, _⟩ := Option.bind_eq_some.mp A7.symm
        obtain ⟨t8, ht8, _⟩ := Option.bind_eq_some.mp A8.symm
        obtain ⟨t9, ht9, _⟩ := Option.bind_eq_some.mp A9.symm
        obtain ⟨t10, ht10, _⟩ := Option.bind_eq_some.mp A10.symm
        have hmk := combineInput_mk b c t1 t2 t3 t4 t5 t6 t7 t8 t9 t10
          ht1 ht2 ht3 ht4 ht5 ht6 ht7 ht8 ht9 ht10
        rw [hbc] at hmk
        exact Option.noConfusion hmk
    | some w2 =>
      rw [Option.some_bind]
      obtain ⟨g1, g2, g3, g4, g5, g6, g7, g8, g9, g10⟩ := combineInput_char b c w2 hbc
      rw [e1, g1, Option.some_bind, Option.some_bind] at A1
      rw [e2, g2, Option.some_bind, Option.some_bind] at A2
      rw [e3, g3, Option.some_bind, Option.some_bind] at A3
      rw [e4, g4, Option.some_bind, Option.some_bind] at A4
      rw [e5, g5, Option.some_bind, Option.some_bind] at A5
      rw [e6, g6, Option.some_bind, Option.some_bind] at A6
      rw [e7, g7, Option.some_bind, Option.some_bind] at A7
      rw [e8, g8, Option.some_bind, Option.some_bind] at A8
      rw [e9, g9, Option.some_bind, Option.some_bind] at A9
      rw [e10, g10, Option.some_bind, Option.some_bind] at A10
      exact combineInput_congr w1 c a w2 A1 A2 A3 A4 A5 A6 A7 A8 A9 A10

theorem combineOutput_assoc (a b c : OutputRecord) (ha : sortedOutput a)
    (hb : sortedOutput b) (hc : sortedOutput c) :
    (combineOutput a b).bind (fun w => combineOutput w c) =
      (combineOutput b c).bind (fun w => combineOutput a w) := by
  obtain ⟨ha1, ha2⟩ := ha
  obtain ⟨hb1, hb2⟩ := hb
  obtain ⟨hc1, hc2⟩ := hc
  have A1 := mergeOpt_assoc a.redeemScript b.redeemScript c.redeemScript
  have A2 := mergeOpt_assoc a.witnessScript b.witnessScript c.witnessScript
  have A3 := mergeAssoc_assoc a.hdKeypaths b.hdKeypaths c.hdKeypaths ha1 hb1 hc1
  have A4 := mergeAssoc_assoc a.unknown b.unknown c.unknown ha2 hb2 hc2
  cases hab : combineOutput a b with
  | none =>
    rw [Option.none_bind]
    cases hbc : combineOutput b c with
    | none => rw [Option.none_bind]
    | some w2 =>
      rw [Option.some_bind]
      obtain ⟨g1, g2, g3, g4⟩ := combineOutput_char b c w2 hbc
      cases haw : combineOutput a w2 with
      | none => rfl
      | some r =>
        exfalso
        obtain ⟨k1, k2, k3, k4⟩ := combineOutput_char a w2 r haw
        rw [g1, Option.some_bind, k1] at A1
        rw [g2, Option.some_bind, k2] at A2
        rw [g3, Option.some_bind, k3] at A3
        rw [g4, Option.some_bind, k4] at A4
        obtain ⟨t1, ht1, _⟩ := Option.bind_eq_some.mp A1
        obtain ⟨t2, ht2, _⟩ := Option.bind_eq_some.mp A2
        obtain ⟨t3, ht3, _⟩ := Option.bind_eq_some.mp A3
        obtain ⟨t4, ht4, _⟩ := Option.bind_eq_some.mp A4
        have hmk := combineOutput_mk a b t1 t2 t3 t4 ht1 ht2 ht3 ht4
        rw [hab] at hmk
        exact Option.noConfusion hmk
  | some w1 =>
    rw [Option.some_bind]
    obtain ⟨e1, e2, e3, e4⟩ := combineOutput_char a b w1 hab
    cases hbc : combineOutput b c with
    | none =>
      rw [Option.none_bind]
      cases hw1c : combineOutput w1 c with
      | none => rfl
      | some r =>
        exfalso
        obtain ⟨k1, k2, k3, k4⟩ := combineOutput_char w1 c r hw1c
        rw [e1, Option.some_bind, k1] at A1
        rw [e2, Option.some_bind, k2] at A2
        rw [e3, Option.some_bind, k3] at A3
        rw [e4, Option.some_bind, k4] at A4
        obtain ⟨t1, ht1, _⟩ := Option.bind_eq_some.mp A1.symm
        obtain ⟨t2, ht2, _⟩ := Option.bind_eq_some.mp A2.symm
        obtain ⟨t3, ht3, _⟩ := Option.bind_eq_some.mp A3.symm
        obtain ⟨t4, ht4, _⟩ := Option.bind_eq_some.mp A4.symm
        have hmk := combineOutput_mk b c t1 t2 t3 t4 ht1 ht2 ht3 ht4
        rw [hbc] at hmk
        exact Option.noConfusion hmk
    | some w2 =>
      rw [Option.some_bind]
      obtain ⟨g1, g2, g3, g4⟩ := combineOutput_char b c w2 hbc
      rw [e1, g1, Option.some_bind, Option.some_bind] at A1
      rw [e2, g2, Option.some_bind, Option.some_bind] at A2
      rw [e3, g3, Option.some_bind, Option.some_bind] at A3
      rw [e4, g4, Option.some_bind, Option.some_bind] at A4
      exact combineOutput_congr w1 c a w2 A1 A2 A3 A4

/-! ## Index-aligned record lists -/

/-- Zip two index-aligned record lists under a fallible pairwise union;
fails on a length mismatch or any pairwise failure. -/
def zipWithOption {A B C : Type} (f : A → B → Option C) : List A → List B → Option (List C)
  | [], [] => some []
  | a :: as, b :: bs =>
    match f a b, zipWithOption f as bs with
    | some c, some cs => some (c :: cs)
    | _, _ => none
  | _, _ => none

theorem zipWithOption_comm {A C : Type} (f : A → A → Option C) (as : List A) :
    ∀ (bs : List A), (∀ a ∈ as, ∀ b ∈ bs, f a b = f b a) →
      zipWithOption f as bs = zipWithOption f bs as := by
  induction as with
  | nil => intro bs _; cases bs <;> rfl
  | cons a as ih =>
    intro bs hcomm
    cases bs with
    | nil => rfl
    | cons b bs =>
      unfold zipWithOption
      rw [hcomm a (List.mem_cons_self a as) b (List.mem_cons_self b bs),
        ih bs (fun x hx y hy =>
          hcomm x (List.mem_cons_of_mem a hx) y (List.mem_cons_of_mem b hy))]

theorem zipWithOption_pointwise {A B C : Type} (f : A → B → Option C) (as : List A) :
    ∀ (bs : List B) (cs : List C), zipWithOption f as bs = some cs →
      ∀ (i : Nat) (hia : i < as.length) (hib : i < bs.length),
        (f (as.get ⟨i, hia⟩) (bs.get ⟨i, hib⟩)).isSome := by
  induction as with
  | nil => intro bs cs _ i hia; exact absurd hia (Nat.not_lt_zero i)
  | cons a as ih =>
    intro bs cs h i hia hib
    cases bs with
    | nil => exact absurd h (by simp [zipWithOption])
    | cons b bs =>
      unfold zipWithOption at h
      cases hf : f a b with
      | none => rw [hf] at h; exact absurd h (by simp)
      | some c =>
        cases hz : zipWithOption f as bs with
        | none => rw [hf, hz] at h; exact absurd h (by simp)
        | some cs2 =>
          cases i with
          | zero => simp [hf]
          | succ j =>
            have := ih bs cs2 hz j (Nat.lt_of_succ_lt_succ hia) (Nat.lt_of_succ_lt_succ hib)
            simpa using this

theorem zipWithOption_assoc {A : Type} (f : A → A → Option A) (as : List A) :
    ∀ (bs cs : List A),
      (∀ a ∈ as, ∀ b ∈ bs, ∀ c ∈ cs,
        (f a b).bind (fun w => f w c) = (f b c).bind (fun w => f a w)) →
      (zipWithOption f as bs).bind (fun ws => zipWithOption f ws cs) =
        (zipWithOption f bs cs).bind (fun ws => zipWithOption f as ws) := by
  induction as with
  | nil =>
    intro bs cs _
    cases bs with
    | nil => cases cs <;> rfl
    | cons b bs =>
      cases cs with
      | nil => rfl
      | cons c cs =>
        cases hf : f b c <;> cases hz : zipWithOption f bs cs <;>
          simp [zipWithOption, hf, hz]
  | cons a as ih =>
    intro bs cs hassoc
    cases bs with
    | nil =>
      cases cs with
      | nil => rfl
      | cons c cs => rfl
    | cons b bs =>
      cases cs with
      | nil =>
        cases hf : f a b <;> cases hz : zipWithOption f as bs <;>
          simp [zipWithOption, hf, hz]
      | cons c cs =>
        have H := hassoc a (List.mem_cons_self a as) b (List.mem_cons_self b bs)
          c (List.mem_cons_self c cs)
        have T := ih bs cs (fun x hx y hy z hz => hassoc x (List.mem_cons_of_mem a hx)
          y (List.mem_cons_of_mem b hy) z (List.mem_cons_of_mem c hz))
        cases hf1 : f a b with
        | none =>
          rw [hf1, Option.none_bind] at H
          cases hf2 : f b c with
          | none => simp [zipWithOption, hf1, hf2]
          | some w2 =>
            rw [hf2, Option.some_bind] at H
            cases hz2 : zipWithOption f bs cs with
            | none => simp [zipWithOption, hf1, hf2, hz2]
            | some ws2 => simp [zipWithOption, hf1, hf2, hz2, H.symm]
        | some w1 =>
          rw [hf1, Option.some_bind] at H
          cases hz1 : zipWithOption f as bs with
          | none =>
            rw [hz1, Option.none_bind] at T
            cases hf2 : f b c with
            | none => simp [zipWithOption, hf1, hz1, hf2]
            | some w2 =>
              cases hz2 : zipWithOption f bs cs with
              | none => simp [zipWithOption, hf1, hz1, hf2, hz2]
              | some ws2 =>
                rw [hz2, Option.some_bind] at T
                simp [zipWithOption, hf1, hz1, hf2, hz2, T.symm]
          | some ws1 =>
            rw [hz1, Option.some_bind] at T
            cases hf2 : f b c with
            | none =>
              rw [hf2, Option.none_bind] at H
              simp [zipWithOption, hf1, hz1, hf2, H]
            | some w2 =>
              rw [hf2, Option.some_bind] at H
              cases hz2 : zipWithOption f bs cs with
              | none =>
                rw [hz2, Option.none_bind] at T
                simp [zipWithOption, hf1, hz1, hf2, hz2, T]
              | some ws2 =>
                rw [hz2, Option.some_bind] at T
                simp only [zipWithOption, hf1, hz1, hf2, hz2, Option.some_bind]
                rw [H, T]

/-! ## Combining PSBTs -/

/-- A PSBT in canonical form: every record's keyed collections are strictly
sorted by key. -/
def sortedPsbt (p : PSBT) : Prop :=
  (∀ r ∈ p.inputs, sortedInput r) ∧ (∀ r ∈ p.outputs, sortedOutput r) ∧
    SortedKeys p.unknown

instance (p : PSBT) : Decidable (sortedPsbt p) := by
  unfold sortedPsbt; infer_instance

/-- Modelled from the spec (§4.4): merge two PSBTs describing the same
transaction — the skeletons must be structurally identical, and every
record and the global unknown map are unioned field-by-field; any field
present on both sides with different values is a conflict (`none`). -/
def combineTwoPsbt (a b : PSBT) : Option PSBT :=
  if a.tx = b.tx then
    (zipWithOption combineInput a.inputs b.inputs).bind fun ins =>
    (zipWithOption combineOutput a.outputs b.outputs).bind fun outs =>
    (mergeAssoc a.unknown b.unknown).bind fun un =>
    some ⟨a.tx, ins, outs, un⟩
  else none

theorem combineTwoPsbt_char (a b w : PSBT) (h : combineTwoPsbt a b = some w) :
    a.tx = b.tx ∧ w.tx = a.tx ∧
    zipWithOption combineInput a.inputs b.inputs = some w.inputs ∧
    zipWithOption combineOutput a.outputs b.outputs = some w.outputs ∧
    mergeAssoc a.unknown b.unknown = some w.unknown := by
  unfold combineTwoPsbt at h
  split_ifs at h with htx
  simp only [Option.bind_eq_some] at h
  obtain ⟨ins, h1, outs, h2, un, h3, hw⟩ := h
  obtain rfl : (⟨a.tx, ins, outs, un⟩ : PSBT) = w := Option.some.inj hw
  exact ⟨htx, rfl, h1, h2, h3⟩

theorem combineTwoPsbt_mk (a b : PSBT) (ins : List InputRecord)
    (outs : List OutputRecord) (un : List Entry) (htx : a.tx = b.tx)
    (h1 : zipWithOption combineInput a.inputs b.inputs = some ins)
    (h2 : zipWithOption combineOutput a.outputs b.outputs = some outs)
    (h3 : mergeAssoc a.unknown b.unknown = some un) :
    combineTwoPsbt a b = some ⟨a.tx, ins, outs, un⟩ := by
  unfold combineTwoPsbt
  rw [if_pos htx, h1, Option.some_bind, h2, Option.some_bind, h3, Option.some_bind]

theorem combineTwoPsbt_comm (a b : PSBT) (ha : sortedPsbt a) (hb : sortedPsbt b) :
    combineTwoPsbt a b = combineTwoPsbt b a := by
  obtain ⟨ha1, ha2, ha3⟩ := ha
  obtain ⟨hb1, hb2, hb3⟩ := hb
  unfold combineTwoPsbt
  by_cases htx : a.tx = b.tx
  · rw [if_pos htx, if_pos htx.symm,
      zipWithOption_comm combineInput a.inputs b.inputs
        (fun x hx y hy => combineInput_comm x y (ha1 x hx) (hb1 y hy)),
      zipWithOption_comm combineOutput a.outputs b.outputs
        (fun x hx y hy => combineOutput_comm x y (ha2 x hx) (hb2 y hy)),
      mergeAssoc_comm a.unknown b.unknown ha3 hb3, htx]
  · rw [if_neg htx, if_neg (fun h => htx h.symm)]

theorem combineTwoPsbt_assoc (a b c : PSBT) (ha : sortedPsbt a) (hb : sortedPsbt b)
    (hc : sortedPsbt c) :
    (combineTwoPsbt a b).bind (fun w => combineTwoPsbt w c) =
      (combineTwoPsbt b c).bind (fun w => combineTwoPsbt a w) := by
  obtain ⟨ha1, ha2, ha3⟩ := ha
  obtain ⟨hb1, hb2, hb3⟩ := hb
  obtain ⟨hc1, hc2, hc3⟩ := hc
  by_cases htx1 : a.tx = b.tx
  · by_cases htx2 : b.tx = c.tx
    · have Z1 := zipWithOption_assoc combineInput a.inputs b.inputs c.inputs
        (fun x hx y hy z hz =>
          combineInput_assoc x y z (ha1 x hx) (hb1 y hy) (hc1 z hz))
      have Z2 := zipWithOption_assoc combineOutput a.outputs b.outputs c.outputs
        (fun x hx y hy z hz =>
          combineOutput_assoc x y z (ha2 x hx) (hb2 y hy) (hc2 z hz))
      have Z3 := mergeAssoc_assoc a.unknown b.unknown c.unknown ha3 hb3 hc3
      cases hab : combineTwoPsbt a b with
      | none =>
        rw [Option.none_bind]
        cases hbc : combineTwoPsbt b c with
        | none => rw [Option.none_bind]
        | some w2 =>
          rw [Option.some_bind]
          obtain ⟨_, gtx, g1, g2, g3⟩ := combineTwoPsbt_char b c w2 hbc
          cases haw : combineTwoPsbt a w2 with
          | none => rfl
          | some r =>
            exfalso
            obtain ⟨_, _, k1, k2, k3⟩ := combineTwoPsbt_char a w2 r haw
            rw [g1, Option.some_bind, k1] at Z1
            rw [g2, Option.some_bind, k2] at Z2
            rw [g3, Option.some_bind, k3] at Z3
            obtain ⟨t1, ht1, _⟩ := Option.bind_eq_some.mp Z1
            obtain ⟨t2, ht2, _⟩ := Option.bind_eq_some.mp Z2
            obtain ⟨t3, ht3, _⟩ := Option.bind_eq_some.mp Z3
            have hmk := combineTwoPsbt_mk a b t1 t2 t3 htx1 ht1 ht2 ht3
            rw [hab] at hmk
            exact Option.noConfusion hmk
      | some w1 =>
        rw [Option.some_bind]
        obtain ⟨_, etx, e1, e2, e3⟩ := combineTwoPsbt_char a b w1 hab
        cases hbc : combineTwoPsbt b c with
        | none =>
          rw [Option.none_bind]
          cases hw1c : combineTwoPsbt w1 c with
          | none => rfl
          | some r =>
            exfalso
            obtain ⟨_, _, k1, k2, k3⟩ := combineTwoPsbt_char w1 c r hw1c
            rw [e1, Option.some_bind, k1] at Z1
            rw [e2, Option.some_bind, k2] at Z2
            rw [e3, Option.some_bind, k3] at Z3
            obtain ⟨t1, ht1, _⟩ := Option.bind_eq_some.mp Z1.symm
            obtain ⟨t2, ht2, _⟩ := Option.bind_eq_some.mp Z2.symm
            obtain ⟨t3, ht3, _⟩ := Option.bind_eq_some.mp Z3.symm
            have hmk := combineTwoPsbt_mk b c t1 t2 t3 htx2 ht1 ht2 ht3
            rw [hbc] at hmk
            exact Option.noConfusion hmk
        | some w2 =>
          rw [Option.some_bind]
          obtain ⟨_, gtx, g1, g2, g3⟩ := combineTwoPsbt_char b c w2 hbc
          rw [e1, g1, Option.some_bind, Option.some_bind] at Z1
          rw [e2, g2, Option.some_bind, Option.some_bind] at Z2
          rw [e3, g3, Option.some_bind, Option.some_bind] at Z3
          unfold combineTwoPsbt
          rw [if_pos (show w1.tx = c.tx by rw [etx]; exact htx1.trans htx2),
            if_pos (show a.tx = w2.tx by rw [gtx]; exact htx1), Z1, Z2, Z3, etx]
    · have hbc : combineTwoPsbt b c = none := by
        unfold combineTwoPsbt; rw [if_neg htx2]
      rw [hbc, Option.none_bind]
      cases hab : combineTwoPsbt a b with
      | none => rw [Option.none_bind]
      | some w1 =>
        rw [Option.some_bind]
        obtain ⟨_, etx, _, _, _⟩ := combineTwoPsbt_char a b w1 hab
        unfold combineTwoPsbt
        rw [if_neg (show ¬ w1.tx = c.tx by
          rw [etx]; exact fun h => htx2 (htx1.symm.trans h))]
  · -- a and b do not share a skeleton: both orders fail on that pair
    have hab : combineTwoPsbt a b = none := by
      unfold combineTwoPsbt; rw [if_neg htx1]
    rw [hab, Option.none_bind]
    cases hbc : combineTwoPsbt b c with
    | none => rw [Option.none_bind]
    | some w2 =>
      rw [Option.some_bind]
      obtain ⟨_, gtx, _, _, _⟩ := combineTwoPsbt_char b c w2 hbc
      unfold combineTwoPsbt
      rw [if_neg (by rw [gtx]; exact htx1)]

/-- Modelled from the spec (§4.4): fold `combineTwoPsbt` over the remaining
PSBTs, failing on the first conflict. -/
def combineFold (acc : PSBT) : List PSBT → Except String PSBT
  | [] => Except.ok acc
  | q :: qs =>
    match combineTwoPsbt acc q with
    | none => Except.error "PSBT combine conflict"
    | some r => combineFold r qs

/-- Modelled from the spec (§4.4): `combine` merges PSBTs that describe the
same transaction; an empty input list fails immediately (the test suite pins
the message "Parameter 'txs' cannot be empty"). -/
def combine : List PSBT → Except String PSBT
  | [] => Except.error "Parameter 'txs' cannot be empty"
  | p :: ps => combineFold p ps

/-- A shared skeleton for the concrete combine witnesses. -/
def sharedTx : TxSkeleton :=
  ⟨[⟨List.replicate 32 0xaa, 1⟩], [⟨5000, [0x6a, 0x01, 0x00]⟩]⟩

/-- A PSBT carrying one partial signature from key 2. -/
def psbtA : PSBT :=
  ⟨sharedTx, [⟨none, none, [(2, [1])], none, none, none, [], none, none, []⟩],
   [⟨none, none, [], []⟩], []⟩

/-- A PSBT on the same skeleton carrying one partial signature from key 5. -/
def psbtB : PSBT :=
  ⟨sharedTx, [⟨none, none, [(5, [2])], none, none, none, [], none, none, []⟩],
   [⟨none, none, [], []⟩], []⟩

/-- A PSBT on the same skeleton carrying one key origin for key 3. -/
def psbtC : PSBT :=
  ⟨sharedTx, [⟨none, none, [], none, none, none, [(3, [7])], none, none, []⟩],
   [⟨none, none, [], []⟩], []⟩

/-- A PSBT on the same skeleton whose signature for key 2 conflicts with
`psbtA`'s. -/
def psbtConflict : PSBT :=
  ⟨sharedTx, [⟨none, none, [(2, [9])], none, none, none, [], none, none, []⟩],
   [⟨none, none, [], []⟩], []⟩

/-- C2: for canonical-form PSBTs, `combine` is commutative —
`combine [a, b] = combine [b, a]` — and associative: whenever
`combine [a, b]` and `combine [b, c]` succeed,
`combine [combine [a, b], c] = combine [a, combine [b, c]]`. -/
theorem claim_C2_combine_comm_assoc (a b c : PSBT) (hsa : sortedPsbt a)
    (hsb : sortedPsbt b) (hsc : sortedPsbt c) :
    combine [a, b] = combine [b, a] ∧
    (∀ ab bc : PSBT, combine [a, b] = Except.ok ab → combine [b, c] = Except.ok bc →
      combine [ab, c] = combine [a, bc]) := by
  constructor
  · show combineFold a [b] = combineFold b [a]
    simp only [combineFold, combineTwoPsbt_comm a b hsa hsb]
  · intro ab bc h1 h2
    have hab : combineTwoPsbt a b = some ab := by
      have h1' : combineFold a [b] = Except.ok ab := h1
      unfold combineFold at h1'
      cases h : combineTwoPsbt a b with
      | none => rw [h] at h1'; exact absurd h1' (by simp)
      | some r =>
        rw [h] at h1'
        have : r = ab := Except.ok.inj h1'
        rw [this]
    have hbc : combineTwoPsbt b c = some bc := by
      have h2' : combineFold b [c] = Except.ok bc := h2
      unfold combineFold at h2'
      cases h : combineTwoPsbt b c with
      | none => rw [h] at h2'; exact absurd h2' (by simp)
      | some r =>
        rw [h] at h2'
        have : r = bc := Except.ok.inj h2'
        rw [this]
    have key := combineTwoPsbt_assoc a b c hsa hsb hsc
    rw [hab, Option.some_bind, hbc, Option.some_bind] at key
    show combineFold ab [c] = combineFold a [bc]
    simp only [combineFold, key]

/-- Witness for C2 at three concrete compatible PSBTs on one skeleton. -/
theorem claim_C2_combine_comm_assoc_witness :
    (sortedPsbt psbtA ∧ sortedPsbt psbtB ∧ sortedPsbt psbtC) ∧
    combine [psbtA, psbtB] = combine [psbtB, psbtA] :=
  ⟨⟨by decide, by decide, by decide⟩,
   (claim_C2_combine_comm_assoc psbtA psbtB psbtC (by decide) (by decide)
     (by decide)).1⟩

/-- C3: `combine` of an empty list fails immediately with an error, and
`combine` of two PSBTs carrying different values for the same field (here: a
partial signature for the same public key of the same input) fails with a
conflict error instead of silently picking one value. -/
theorem claim_C3_combine_empty_and_conflict :
    combine ([] : List PSBT) = Except.error "Parameter 'txs' cannot be empty" ∧
    (∀ (a b : PSBT) (i : Nat) (hia : i < a.inputs.length) (hib : i < b.inputs.length)
      (k : Nat) (v w : Bytes), sortedPsbt a → sortedPsbt b →
      (k, v) ∈ (a.inputs.get ⟨i, hia⟩).partialSigs →
      (k, w) ∈ (b.inputs.get ⟨i, hib⟩).partialSigs → v ≠ w →
      combine [a, b] = Except.error "PSBT combine conflict") := by
  refine ⟨rfl, ?_⟩
  intro a b i hia hib k v w hsa hsb hva hwb hne
  have hnone : combineTwoPsbt a b = none := by
    cases h : combineTwoPsbt a b with
    | none => rfl
    | some q =>
      exfalso
      obtain ⟨_, _, h1, _, _⟩ := combineTwoPsbt_char a b q h
      have hp := zipWithOption_pointwise combineInput a.inputs b.inputs q.inputs h1
        i hia hib
      rw [Option.isSome_iff_exists] at hp
      obtain ⟨r, hr⟩ := hp
      obtain ⟨_, _, h3, _, _, _, _, _, _, _⟩ := combineInput_char _ _ r hr
      have hsiga : SortedKeys (a.inputs.get ⟨i, hia⟩).partialSigs :=
        (hsa.1 _ (List.get_mem a.inputs i hia)).1
      have hsigb : SortedKeys (b.inputs.get ⟨i, hib⟩).partialSigs :=
        (hsb.1 _ (List.get_mem b.inputs i hib)).1
      have hcompat := mergeAssoc_compat _ _ _ hsiga hsigb h3
      exact hne (hcompat (k, v) hva (k, w) hwb rfl)
  show combineFold a [b] = _
  simp only [combineFold, hnone]

/-- Witness for C3's conflict half at two concrete PSBTs that disagree on
the signature for key 2 of input 0. -/
theorem claim_C3_combine_empty_and_conflict_witness :
    (sortedPsbt psbtA ∧ sortedPsbt psbtConflict ∧
      ((2 : Nat), ([1] : Bytes)) ∈ (psbtA.inputs.get ⟨0, by decide⟩).partialSigs) ∧
    combine [psbtA, psbtConflict] = Except.error "PSBT combine conflict" :=
  ⟨⟨by decide, by decide, by decide⟩,
   (claim_C3_combine_empty_and_conflict).2 psbtA psbtConflict 0 (by decide)
     (by decide) 2 [1] [9] (by decide) (by decide) (by decide) (by decide)
     (by decide)⟩

/-! ## Joining PSBTs

Modelled from the spec (§4.4): `join` unions *disjoint* PSBTs into a single
larger transaction — the skeletons' input sets must be pairwise disjoint
(no shared outpoint across any two); on success the skeletons and the
corresponding record lists are concatenated preserving source order. -/

/-- Pairwise input-disjointness: no outpoint of `a` occurs among `b`'s. -/
def DisjointInputs (a b : PSBT) : Prop :=
  ∀ o ∈ a.tx.inputs, o ∉ b.tx.inputs

instance (a b : PSBT) : Decidable (DisjointInputs a b) := by
  unfold DisjointInputs; infer_instance

/-- Modelled from the spec (§4.4): `join` concatenates the skeletons
(inputs and outputs) preserving source order, and concatenates the
corresponding record lists with identical ordering; if any outpoint appears
in more than one input PSBT it fails with "exists in multiple PSBTs" (the
message pinned by the functional test). -/
def join (ps : List PSBT) : Except String PSBT :=
  if List.Pairwise DisjointInputs ps then
    Except.ok ⟨⟨(ps.map (fun p => p.tx.inputs)).flatten,
        (ps.map (fun p => p.tx.outputs)).flatten⟩,
      (ps.map PSBT.inputs).flatten, (ps.map PSBT.outputs).flatten, []⟩
  else Except.error "exists in multiple PSBTs"

/-- C4: `join` succeeds iff the input outpoint sets are pairwise disjoint;
any two PSBTs sharing an outpoint fail to join with "exists in multiple
PSBTs"; and on success the joined PSBT's input and output lists (skeleton
and records) are the concatenations of the sources' lists in source
order. -/
theorem claim_C4_join_disjoint_concat (ps : List PSBT) :
    ((∃ q, join ps = Except.ok q) ↔ List.Pairwise DisjointInputs ps) ∧
    (∀ (a b : PSBT) (o : Outpoint), o ∈ a.tx.inputs → o ∈ b.tx.inputs →
      join [a, b] = Except.error "exists in multiple PSBTs") ∧
    (∀ q, join ps = Except.ok q →
      q.tx.inputs = (ps.map (fun p => p.tx.inputs)).flatten ∧
      q.tx.outputs = (ps.map (fun p => p.tx.outputs)).flatten ∧
      q.inputs = (ps.map PSBT.inputs).flatten ∧
      q.outputs = (ps.map PSBT.outputs).flatten) := by
  refine ⟨?_, ?_, ?_⟩
  · constructor
    · intro ⟨q, hq⟩
      by_contra hnd
      rw [join, if_neg hnd] at hq
      exact Except.noConfusion hq
    · intro hd
      exact ⟨_, by rw [join, if_pos hd]⟩
  · intro a b o hoa hob
    have hnd : ¬ List.Pairwise DisjointInputs [a, b] := by
      intro hp
      rw [List.pairwise_cons] at hp
      exact hp.1 b (List.mem_cons_self b []) o hoa hob
    rw [join, if_neg hnd]
  · intro q hq
    by_cases hd : List.Pairwise DisjointInputs ps
    · rw [join, if_pos hd] at hq
      obtain rfl := (Except.ok.inj hq).symm
      exact ⟨rfl, rfl, rfl, rfl⟩
    · rw [join, if_neg hd] at hq
      exact Except.noConfusion hq

/-- Witness for C4: joining a PSBT with itself fails on the shared
outpoint; the skeleton of `psbtA` indeed contains that outpoint. -/
theorem claim_C4_join_disjoint_concat_witness :
    (⟨List.replicate 32 0xaa, 1⟩ : Outpoint) ∈ psbtA.tx.inputs ∧
    join [psbtA, psbtA] = Except.error "exists in multiple PSBTs" :=
  ⟨by decide,
   (claim_C4_join_disjoint_concat [psbtA, psbtA]).2.1 psbtA psbtA
     ⟨List.replicate 32 0xaa, 1⟩ (by decide) (by decide)⟩

/-! ## Converting a raw transaction to a PSBT

Modelled from the spec (§4.3, error taxonomy) and the functional test: a raw
transaction whose inputs already carry signature data cannot be converted
unless the caller explicitly permits stripping it. -/

/-- One raw-transaction input: the outpoint it spends and its (possibly
already filled) unlock script. -/
structure RawTxIn where
  prevout : Outpoint
  scriptSig : Bytes
  deriving DecidableEq, Repr

/-- A raw (network-format) transaction. -/
structure RawTx where
  vin : List RawTxIn
  vout : List TxOut
  deriving DecidableEq, Repr

/-- Modelled from the spec and `rpc_psbt.py`: convert a raw transaction into
an unsigned PSBT.  When `permitsigdata` is false (the default), any input
carrying a scriptSig is rejected with "Inputs must not have scriptSigs";
when true, signature data is stripped and the conversion succeeds. -/
def converttopsbt (tx : RawTx) (permitsigdata : Bool) : Except String PSBT :=
  if permitsigdata = false ∧ ∃ i ∈ tx.vin, i.scriptSig ≠ [] then
    Except.error "Inputs must not have scriptSigs"
  else
    Except.ok ⟨⟨tx.vin.map (fun i => i.prevout), tx.vout⟩,
      tx.vin.map (fun _ => emptyInput), tx.vout.map (fun _ => emptyOutput), []⟩

/-- The default call omits the permissive flag, i.e. passes `false`. -/
def converttopsbtDefault (tx : RawTx) : Except String PSBT :=
  converttopsbt tx false

/-- C10: converting a raw transaction with a non-empty scriptSig fails with
"Inputs must not have scriptSigs" both by default and with the permissive
flag explicitly false; with the flag true the conversion succeeds, the
resulting PSBT's skeleton keeps only the outpoints (signatures stripped)
and every input record is empty. -/
theorem claim_C10_converttopsbt_scriptsigs (tx : RawTx)
    (h : ∃ i ∈ tx.vin, i.scriptSig ≠ []) :
    converttopsbtDefault tx = Except.error "Inputs must not have scriptSigs" ∧
    converttopsbt tx false = Except.error "Inputs must not have scriptSigs" ∧
    ∃ q, converttopsbt tx true = Except.ok q ∧
      q.tx.inputs = tx.vin.map (fun i => i.prevout) ∧
      q.tx.outputs = tx.vout ∧
      (∀ r ∈ q.inputs, r = emptyInput) := by
  have hf : converttopsbt tx false = Except.error "Inputs must not have scriptSigs" := by
    rw [converttopsbt, if_pos ⟨rfl, h⟩]
  refine ⟨hf, hf, ?_⟩
  refine ⟨_, by rw [converttopsbt, if_neg (fun hc => Bool.noConfusion hc.1)], rfl, rfl, ?_⟩
  intro r hr
  rcases List.mem_map.mp hr with ⟨i, _, rfl⟩
  rfl

/-- Witness for C10 at a concrete one-input transaction carrying a
scriptSig. -/
theorem claim_C10_converttopsbt_scriptsigs_witness :
    (∃ i ∈ (RawTx.mk [⟨⟨List.replicate 32 0xbb, 0⟩, [0x51]⟩] []).vin,
      i.scriptSig ≠ []) ∧
    converttopsbtDefault (RawTx.mk [⟨⟨List.replicate 32 0xbb, 0⟩, [0x51]⟩] []) =
      Except.error "Inputs must not have scriptSigs" :=
  ⟨by decide,
   (claim_C10_converttopsbt_scriptsigs
     (RawTx.mk [⟨⟨List.replicate 32 0xbb, 0⟩, [0x51]⟩] []) (by decide)).1⟩

/-! ## Script templates, signing and finalizing

Modelled from the spec (§4.5, §4.6, §9): script templates form a closed
tagged-variant type; the Signer adds signatures keyed by public key for
every available required key of an input whose previous-output data is
present; completeness holds when the signature set meets the template's
threshold; the Finalizer moves satisfiable inputs to finalized, ordering
signatures by the script's declared key order. -/

/-- Modelled from the spec (§9): the closed set of standard script
templates. -/
inductive ScriptTemplate
  | pkh (pk : Nat)
  | multisig (threshold : Nat) (pks : List Nat)
  | sh (inner : ScriptTemplate)
  deriving DecidableEq, Repr

/-- The public keys a template declares, in script order. -/
def scriptKeys : ScriptTemplate → List Nat
  | .pkh pk => [pk]
  | .multisig _ pks => pks
  | .sh inner => scriptKeys inner

/-- The number of signatures needed to satisfy a template (threshold for
multisig, exactly one for pubkey-hash). -/
def sigThreshold : ScriptTemplate → Nat
  | .pkh _ => 1
  | .multisig n _ => n
  | .sh inner => sigThreshold inner

/-- Modelled from the spec (§4.5): the signer's per-input view — the
input's script template, whether previous-output data is present, the
accumulated public-key-keyed signature map, and the final unlock field. -/
structure SignInput where
  template : ScriptTemplate
  hasPrevout : Bool
  sigs : List (Nat × Nat)
  finalScriptSig : Option (List Nat)
  deriving DecidableEq, Repr

/-- The deterministic signature of a key over this input's digest
(cryptography abstracted; determinism is what matters for idempotence). -/
def sigOf (pk : Nat) : Nat := pk + 1

/-- Modelled from the spec (§4.5): insert one signature keyed by public key
into the sorted signature map; re-signing with the same key is a no-op
(idempotent, never duplicating the entry). -/
def insertSig (pk sig : Nat) : List (Nat × Nat) → List (Nat × Nat)
  | [] => [(pk, sig)]
  | (k, s) :: rest =>
    if pk < k then (pk, sig) :: (k, s) :: rest
    else if k < pk then (k, s) :: insertSig pk sig rest
    else (k, s) :: rest

/-- Modelled from the spec (§4.5): sign one input — for every required key
that is also available, compute and insert a signature keyed by public key.
Inputs lacking previous-output data are never touched (a soft no-op, not a
failure), and an input whose final unlock field is set is immutable. -/
def signInput (avail : List Nat) (inp : SignInput) : SignInput :=
  if inp.hasPrevout = true ∧ inp.finalScriptSig = none then
    { inp with
      sigs := List.foldl (fun acc k => insertSig k (sigOf k) acc) inp.sigs ((scriptKeys inp.template).filter (fun k => decide (k ∈ avail))) }
  else inp

/-- Modelled from the spec (§4.5): sign every input of a PSBT with the
available private keys, returning the updated inputs and per-input
completeness. -/
def signAll (avail : List Nat) (inps : List SignInput) :
    List SignInput × List Bool :=
  (inps.map (signInput avail),
   (inps.map (signInput avail)).map (fun i =>
     decide (sigThreshold i.template ≤
       (i.sigs.filter (fun s => decide (s.1 ∈ scriptKeys i.template))).length)))

/-- Modelled from the spec (§4.5): completeness of one input — the
signature set meets the template's threshold, counting only signatures from
keys the script declares. -/
def InputComplete (inp : SignInput) : Prop :=
  sigThreshold inp.template ≤
    (inp.sigs.filter (fun s => decide (s.1 ∈ scriptKeys inp.template))).length

instance (inp : SignInput) : Decidable (InputComplete inp) := by
  unfold InputComplete; infer_instance

/-- Modelled from the spec (§4.6): the per-input state machine
`Unsigned → PartiallySigned → Satisfiable → Finalized`. -/
inductive InputState
  | unsigned
  | partSigned
  | satisfiable
  | finalized
  deriving DecidableEq, Repr

/-- The state of an input under the spec's §4.6 state machine
(`partSigned` is the spec's PartiallySigned state). -/
def inputState (inp : SignInput) : InputState :=
  if inp.finalScriptSig.isSome then .finalized
  else if InputComplete inp then .satisfiable
  else if inp.sigs = [] then .unsigned
  else .partSigned

/-- Modelled from the spec (§4.6): finalize one input — a satisfiable input
gets its final unlock data, with the collected signatures ordered by the
script's declared key order (not insertion order); a finalized input is
untouched (idempotent) and an unsatisfiable input is left unchanged. -/
def finalizeInput (inp : SignInput) : SignInput :=
  if inp.finalScriptSig.isSome then inp
  else if InputComplete inp then
    { inp with
      finalScriptSig := some ((scriptKeys inp.template).filterMap (fun k => ((inp.sigs.find? (fun s => s.1 == k)).map (fun s => s.2)))) }
  else inp

theorem insertSig_mem_keys (pk sig a : Nat) (l : List (Nat × Nat)) :
    a ∈ (insertSig pk sig l).map Prod.fst ↔ a = pk ∨ a ∈ l.map Prod.fst := by
  induction l with
  | nil => simp [insertSig]
  | cons x rest ih =>
    obtain ⟨k, s⟩ := x
    unfold insertSig
    split_ifs with h1 h2
    · simp only [List.map_cons, List.mem_cons]
    · simp only [List.map_cons, List.mem_cons, ih]
      tauto
    · have hk : pk = k := le_antisymm (le_of_not_lt h2) (le_of_not_lt h1)
      subst hk
      simp only [List.map_cons, List.mem_cons]
      tauto

theorem insertSig_length_fresh (pk sig : Nat) (l : List (Nat × Nat))
    (h : pk ∉ l.map Prod.fst) : (insertSig pk sig l).length = l.length + 1 := by
  induction l with
  | nil => rfl
  | cons x rest ih =>
    obtain ⟨k, s⟩ := x
    unfold insertSig
    split_ifs with h1 h2
    · simp
    · have h' : pk ∉ rest.map Prod.fst := by
        intro hm
        exact h (by simp only [List.map_cons, List.mem_cons]; exact Or.inr hm)
      simp [ih h']
    · have hk : pk = k := le_antisymm (le_of_not_lt h2) (le_of_not_lt h1)
      exact absurd (by simp [hk]) h

theorem foldl_insertSig (f : Nat → Nat) (ks : List Nat) :
    ∀ (acc : List (Nat × Nat)), ks.Nodup → (∀ k ∈ ks, k ∉ acc.map Prod.fst) →
      (ks.foldl (fun a k => insertSig k (f k) a) acc).length =
        acc.length + ks.length ∧
      ∀ a, a ∈ (ks.foldl (fun a k => insertSig k (f k) a) acc).map Prod.fst ↔
        a ∈ acc.map Prod.fst ∨ a ∈ ks := by
  induction ks with
  | nil => intro acc _ _; simp
  | cons k ks ih =>
    intro acc hnd hfresh
    rw [List.nodup_cons] at hnd
    obtain ⟨hk, hnd⟩ := hnd
    have hfk : k ∉ acc.map Prod.fst := hfresh k (List.mem_cons_self k ks)
    have hfresh2 : ∀ x ∈ ks, x ∉ (insertSig k (f k) acc).map Prod.fst := by
      intro x hx hmem
      rcases (insertSig_mem_keys k (f k) x acc).mp hmem with rfl | hmem
      · exact hk hx
      · exact hfresh x (List.mem_cons_of_mem k hx) hmem
    obtain ⟨hlen, hmem⟩ := ih (insertSig k (f k) acc) hnd hfresh2
    constructor
    · rw [List.foldl_cons, hlen, insertSig_length_fresh k (f k) acc hfk]
      simp only [List.length_cons]
      omega
    · intro a
      rw [List.foldl_cons, hmem a, insertSig_mem_keys k (f k) a acc]
      simp only [List.mem_cons]
      tauto

/-- C5: for an n-of-m multisig input (fresh, with previous-output data),
signing with fewer than n distinct required keys leaves completeness false —
and the input in the PartiallySigned state when at least one key signed —
while signing with exactly n distinct required keys makes the input
Satisfiable (completeness true) and a subsequent finalize of that input
succeeds (its final unlock field is written). -/
theorem claim_C5_multisig_threshold (n : Nat) (pks avail : List Nat)
    (inp : SignInput) (htmpl : inp.template = .multisig n pks)
    (hprev : inp.hasPrevout = true) (hsigs : inp.sigs = [])
    (hfin : inp.finalScriptSig = none) (hnodup : pks.Nodup) :
    ((pks.filter (fun k => decide (k ∈ avail))).length < n →
      ¬ InputComplete (signInput avail inp)) ∧
    (0 < (pks.filter (fun k => decide (k ∈ avail))).length →
      (pks.filter (fun k => decide (k ∈ avail))).length < n →
      inputState (signInput avail inp) = .partSigned) ∧
    ((pks.filter (fun k => decide (k ∈ avail))).length = n →
      InputComplete (signInput avail inp) ∧
      inputState (signInput avail inp) = .satisfiable ∧
      (finalizeInput (signInput avail inp)).finalScriptSig.isSome = true) := by
  have hkeys : scriptKeys inp.template = pks := by rw [htmpl]; rfl
  have hsign : signInput avail inp =
      { inp with sigs := List.foldl (fun acc k => insertSig k (sigOf k) acc) [] (pks.filter (fun k => decide (k ∈ avail))) } := by
    unfold signInput
    rw [if_pos ⟨hprev, hfin⟩, hkeys, hsigs]
  have hnd : (pks.filter (fun k => decide (k ∈ avail))).Nodup := hnodup.filter _
  have hfresh : ∀ k ∈ pks.filter (fun k => decide (k ∈ avail)),
      k ∉ ([] : List (Nat × Nat)).map Prod.fst := by simp
  obtain ⟨hlen, hmem⟩ :=
    foldl_insertSig sigOf (pks.filter (fun k => decide (k ∈ avail))) [] hnd hfresh
  have hlen2 : (List.foldl (fun acc k => insertSig k (sigOf k) acc) []
      (pks.filter (fun k => decide (k ∈ avail)))).length =
      (pks.filter (fun k => decide (k ∈ avail))).length := by
    rw [hlen]; simp
  have htmpl2 : (signInput avail inp).template = .multisig n pks := by
    rw [hsign]; exact htmpl
  have hfin2 : (signInput avail inp).finalScriptSig = none := by
    rw [hsign]; exact hfin
  have hsigs2 : (signInput avail inp).sigs =
      List.foldl (fun acc k => insertSig k (sigOf k) acc) []
        (pks.filter (fun k => decide (k ∈ avail))) := by
    rw [hsign]
  have hall : ∀ s ∈ List.foldl (fun acc k => insertSig k (sigOf k) acc) []
      (pks.filter (fun k => decide (k ∈ avail))), decide (s.1 ∈ pks) = true := by
    intro s hs
    have hsk : s.1 ∈ (List.foldl (fun acc k => insertSig k (sigOf k) acc) []
        (pks.filter (fun k => decide (k ∈ avail)))).map Prod.fst :=
      List.mem_map_of_mem Prod.fst hs
    rcases (hmem s.1).mp hsk with h0 | hks
    · exact absurd h0 (by simp)
    · exact decide_eq_true (List.mem_of_mem_filter hks)
  have hIC : InputComplete (signInput avail inp) ↔
      n ≤ (pks.filter (fun k => decide (k ∈ avail))).length := by
    unfold InputComplete
    rw [hsigs2, htmpl2]
    have hfe : (List.foldl (fun acc k => insertSig k (sigOf k) acc) []
        (pks.filter (fun k => decide (k ∈ avail)))).filter
          (fun s => decide (s.1 ∈ scriptKeys (.multisig n pks))) =
        List.foldl (fun acc k => insertSig k (sigOf k) acc) []
          (pks.filter (fun k => decide (k ∈ avail))) := by
      refine List.filter_eq_self.mpr ?_
      intro s hs
      simpa [scriptKeys] using hall s hs
    rw [hfe, hlen2]
    exact Iff.rfl
  refine ⟨?_, ?_, ?_⟩
  · intro hlt hc
    rw [hIC] at hc
    omega
  · intro hpos hlt
    have hne : ¬ (signInput avail inp).sigs = [] := by
      rw [hsigs2]
      intro h0
      rw [h0] at hlen2
      simp at hlen2
      omega
    unfold inputState
    rw [hfin2]
    simp only [Option.isSome_none, Bool.false_eq_true, if_false]
    rw [if_neg (by rw [hIC]; omega), if_neg hne]
  · intro heq
    have hc : InputComplete (signInput avail inp) := by rw [hIC]; omega
    refine ⟨hc, ?_, ?_⟩
    · unfold inputState
      rw [hfin2]
      simp only [Option.isSome_none, Bool.false_eq_true, if_false]
      rw [if_pos hc]
    · unfold finalizeInput
      rw [hfin2]
      simp only [Option.isSome_none, Bool.false_eq_true, if_false]
      rw [if_pos hc]
      simp

/-- A fresh 2-of-2 multisig input with previous-output data present. -/
def sampleMsInput : SignInput := ⟨.multisig 2 [4, 9], true, [], none⟩

/-- Witness for C5: signing the 2-of-2 input with both required keys makes
it satisfiable and finalizable. -/
theorem claim_C5_multisig_threshold_witness :
    (sampleMsInput.template = .multisig 2 [4, 9] ∧ sampleMsInput.sigs = [] ∧
      ([4, 9] : List Nat).Nodup) ∧
    (InputComplete (signInput [4, 9] sampleMsInput) ∧
      inputState (signInput [4, 9] sampleMsInput) = .satisfiable ∧
      (finalizeInput (signInput [4, 9] sampleMsInput)).finalScriptSig.isSome = true) :=
  ⟨⟨rfl, rfl, by decide⟩,
   (claim_C5_multisig_threshold 2 [4, 9] [4, 9] sampleMsInput rfl rfl rfl rfl
     (by decide)).2.2 (by decide)⟩

/-! ## Descriptor range validation

Modelled from the spec (§4.1, §8) with the exact messages and check order
pinned by `wallet_importmulti.py`: a range is given either as a bare end or
as a `[begin, end]` pair; begin must not follow end, bounds must be
non-negative, the end must fit the per-key 31-bit derivation-index maximum,
and the range may span at most 1,000,000 indices. -/

/-- The RPC-level range argument of an import request. -/
inductive RangeValue
  | unspecified
  | single (n : Int)
  | pair (lo hi : Int)
  deriving DecidableEq, Repr

/-- Modelled from the spec: validate resolved range bounds, with one
distinct message per cause so callers can distinguish them. -/
def checkRangeBounds (lo hi : Int) : Except String (Int × Int) :=
  if lo < 0 then Except.error "Range should be greater or equal than 0"
  else if ¬ (0 ≤ hi ∧ hi < 2 ^ 31) then Except.error "End of range is too high"
  else if hi ≥ lo + 1000000 then Except.error "Range is too large"
  else Except.ok (lo, hi)

/-- Modelled from the spec: parse the RPC range argument — a bare end `n`
abbreviates `[0, n]`, and a pair is rejected up front when begin follows
end. -/
def parseDescriptorRange : RangeValue → Except String (Int × Int)
  | .unspecified => Except.error "Range must be specified as end or as [begin,end]"
  | .single n => checkRangeBounds 0 n
  | .pair lo hi =>
    if lo > hi then
      Except.error "Range specified as [begin,end] must not have begin after end"
    else checkRangeBounds lo hi

/-- Modelled from the spec: an import of a ranged descriptor must supply a
range; an un-ranged descriptor must not. -/
def importRangedDescriptorRange (isRanged : Bool) (r : RangeValue) :
    Except String (Int × Int) :=
  if isRanged then
    match r with
    | .unspecified => Except.error "Descriptor is ranged, please specify the range"
    | _ => parseDescriptorRange r
  else
    match r with
    | .unspecified => Except.ok (0, 0)
    | _ => Except.error "Range should not be specified for an un-ranged descriptor"

/-- C6: each range-validation failure carries its distinct message —
`[-1, 10]` fails "Range should be greater or equal than 0", `[2, 1]` fails
the begin-after-end message, any in-bounds range spanning more than
1,000,000 indices fails "Range is too large", and importing a ranged
descriptor with no range fails "Descriptor is ranged, please specify the
range". -/
theorem claim_C6_range_messages :
    parseDescriptorRange (.pair (-1) 10) =
      Except.error "Range should be greater or equal than 0" ∧
    parseDescriptorRange (.pair 2 1) =
      Except.error "Range specified as [begin,end] must not have begin after end" ∧
    (∀ lo hi : Int, 0 ≤ lo → lo ≤ hi → hi < 2 ^ 31 → hi - lo + 1 > 1000000 →
      parseDescriptorRange (.pair lo hi) = Except.error "Range is too large") ∧
    importRangedDescriptorRange true .unspecified =
      Except.error "Descriptor is ranged, please specify the range" := by
  refine ⟨rfl, rfl, ?_, rfl⟩
  intro lo hi h0 hle hhi hspan
  have hstep : parseDescriptorRange (.pair lo hi) =
      if lo > hi then
        Except.error "Range specified as [begin,end] must not have begin after end"
      else checkRangeBounds lo hi := rfl
  rw [hstep, if_neg (not_lt.mpr hle)]
  unfold checkRangeBounds
  rw [if_neg (not_lt.mpr h0), if_neg (not_not_intro ⟨le_trans h0 hle, hhi⟩),
    if_pos (by omega)]

/-- Witness for C6 at the smallest over-long range `[0, 1000000]`
(1,000,001 indices). -/
theorem claim_C6_range_messages_witness :
    ((0 : Int) ≤ 0 ∧ (0 : Int) ≤ 1000000 ∧ (1000000 : Int) < 2 ^ 31 ∧
      (1000000 : Int) - 0 + 1 > 1000000) ∧
    parseDescriptorRange (.pair 0 1000000) = Except.error "Range is too large" :=
  ⟨⟨by decide, by decide, by decide, by decide⟩,
   claim_C6_range_messages.2.2.1 0 1000000 (by decide) (by decide) (by decide)
     (by decide)⟩

/-! ## Import classification

Modelled from the spec (§4.2): `importmulti` classifies each request — the
conflicting-input check comes first and unconditionally (step 7), then the
nonstandard-script policy check (step 1), then key matching determines
spendable / solvable / watch-only status, with the advisory warnings pinned
by `wallet_importmulti.py`. -/

/-- The script being imported: a recognized standard template or a
nonstandard script. -/
inductive ImportScript
  | standard (t : ScriptTemplate)
  | nonstandard
  deriving DecidableEq, Repr

/-- Modelled from the spec: one `importmulti` request item.  Private keys
are identified by their public key. -/
structure ImportRequest where
  hasDescriptor : Bool
  hasScriptPubKey : Bool
  script : ImportScript
  internal : Bool
  watchonly : Bool
  pubkeys : List Nat
  privkeys : List Nat
  redeemScript : Option ScriptTemplate
  deriving DecidableEq, Repr

/-- Modelled from the spec: one per-item `importmulti` outcome — success
flag, optional policy error, the resulting ownership classification and the
advisory warnings. -/
structure ImportResult where
  success : Bool
  error : Option String
  spendable : Bool
  solvable : Bool
  iswatchonly : Bool
  warnings : List String
  deriving DecidableEq, Repr

/-- Warning emitted when supplied key material cannot solve the script. -/
def nonSolvableWarning : String :=
  "Importing as non-solvable: some required keys are missing. If this is intentional, don't provide any keys, pubkeys, or redeemscript."

/-- Warning emitted when an import lacking some private keys is stored
watch-only without the explicit flag. -/
def missingPrivWarning : String :=
  "Some private keys are missing, outputs will be considered watchonly. If this is intentional, specify the watchonly flag."

/-- Warning emitted when a watch-only-flagged import supplies every private
key and is stored spendable anyway. -/
def allPrivWarning : String :=
  "All private keys are provided, outputs will be considered spendable. If this is intentional, do not specify the watchonly flag."

/-- Policy error for a request carrying both a descriptor and a script. -/
def bothProvidedError : String :=
  "Both a descriptor and a scriptPubKey should not be provided."

/-- Policy error for a request carrying neither a descriptor nor a script. -/
def neitherProvidedError : String :=
  "Either a descriptor or scriptPubKey must be provided."

/-- Policy error for a nonstandard script without the internal flag. -/
def nonstandardInternalError : String :=
  "Internal must be set to true for nonstandard scriptPubKey imports."

/-- Modelled from the spec (§4.2 steps 4-5): the supplied material solves
the script — the needed public keys (or the matching redeem script) are
known, so the wallet knows how the output could be spent. -/
def solvableScript (req : ImportRequest) : ScriptTemplate → Bool
  | .pkh k => decide (k ∈ req.pubkeys) || decide (k ∈ req.privkeys)
  | .multisig _ _ => true
  | .sh inner => decide (req.redeemScript = some inner) && solvableScript req inner

/-- Modelled from the spec (§4.2 step 3): every private key needed to spend
the script was supplied. -/
def spendableScript (req : ImportRequest) : ScriptTemplate → Bool
  | .pkh k => decide (k ∈ req.privkeys)
  | .multisig _ pks => decide (∀ k ∈ pks, k ∈ req.privkeys)
  | .sh inner => decide (req.redeemScript = some inner) && spendableScript req inner

/-- Whether the request supplied any key material (keys, pubkeys or a
redeem script) — imports with no material are plain watch-only imports and
warrant no warnings. -/
def materialSupplied (req : ImportRequest) : Bool :=
  decide (req.pubkeys ≠ []) || decide (req.privkeys ≠ []) || req.redeemScript.isSome

/-- Modelled from the spec (§4.2): classify one import request.  The
conflicting-input check (step 7) precedes everything; the nonstandard
policy check (step 1) follows; then key matching yields spendable,
solvable-watch-only or non-solvable-watch-only with the advisory warnings
observed in the test suite. -/
def processImport (req : ImportRequest) : ImportResult :=
  if req.hasDescriptor = true ∧ req.hasScriptPubKey = true then
    ⟨false, some bothProvidedError, false, false, false, []⟩
  else if req.hasDescriptor = false ∧ req.hasScriptPubKey = false then
    ⟨false, some neitherProvidedError, false, false, false, []⟩
  else
    match req.script with
    | .nonstandard =>
      if req.internal = false then
        ⟨false, some nonstandardInternalError, false, false, false, []⟩
      else ⟨true, none, false, false, true, []⟩
    | .standard t =>
      if spendableScript req t then
        ⟨true, none, true, true, false, if req.watchonly then [allPrivWarning] else []⟩
      else
        ⟨true, none, false, solvableScript req t, true,
          (if materialSupplied req && !(solvableScript req t) then [nonSolvableWarning] else []) ++
            (if materialSupplied req && !req.watchonly then [missingPrivWarning] else [])⟩

/-- Modelled from the spec (§7): batch import evaluates every item
independently — one item's outcome never aborts its siblings. -/
def importmulti (reqs : List ImportRequest) : List ImportResult :=
  reqs.map processImport

theorem spendable_imp_solvable (req : ImportRequest) (t : ScriptTemplate)
    (h : spendableScript req t = true) : solvableScript req t = true := by
  induction t with
  | pkh k =>
    simp only [spendableScript, decide_eq_true_eq] at h
    simp only [solvableScript, Bool.or_eq_true, decide_eq_true_eq]
    exact Or.inr h
  | multisig n pks => rfl
  | sh inner ih =>
    simp only [spendableScript, Bool.and_eq_true] at h
    simp only [solvableScript, Bool.and_eq_true]
    exact ⟨h.1, ih h.2⟩

/-- C7: a request supplying both a descriptor and a literal scriptPubKey,
or neither, fails fast with its policy error — unconditionally, for every
request, before any key matching or other classification step (the result
does not depend on the script, keys or flags). -/
theorem claim_C7_conflicting_inputs_fail_fast :
    (∀ req : ImportRequest, req.hasDescriptor = true → req.hasScriptPubKey = true →
      processImport req = ⟨false, some bothProvidedError, false, false, false, []⟩) ∧
    (∀ req : ImportRequest, req.hasDescriptor = false → req.hasScriptPubKey = false →
      processImport req = ⟨false, some neitherProvidedError, false, false, false, []⟩) := by
  constructor
  · intro req h1 h2
    unfold processImport
    rw [if_pos ⟨h1, h2⟩]
  · intro req h1 h2
    unfold processImport
    rw [if_neg (fun hc => by rw [h1] at hc; exact Bool.noConfusion hc.1),
      if_pos ⟨h1, h2⟩]

/-- Witness for C7 at a concrete request carrying both a descriptor and a
script. -/
theorem claim_C7_conflicting_inputs_fail_fast_witness :
    processImport ⟨true, true, .standard (.pkh 5), false, false, [], [5], none⟩ =
      ⟨false, some bothProvidedError, false, false, false, []⟩ :=
  claim_C7_conflicting_inputs_fail_fast.1
    ⟨true, true, .standard (.pkh 5), false, false, [], [5], none⟩ rfl rfl

/-- C8: an import that supplies every required private key while carrying
the watch-only flag still succeeds — the result is spendable, not
watch-only — and emits exactly one informational warning, the one saying
all private keys were provided and the outputs will be considered
spendable. -/
theorem claim_C8_all_privkeys_watchonly_warning (req : ImportRequest)
    (t : ScriptTemplate) (h1 : req.hasDescriptor = false)
    (h2 : req.hasScriptPubKey = true) (hs : req.script = .standard t)
    (hsp : spendableScript req t = true) (hw : req.watchonly = true) :
    processImport req = ⟨true, none, true, true, false, [allPrivWarning]⟩ := by
  unfold processImport
  rw [if_neg (fun hc => by rw [h1] at hc; exact Bool.noConfusion hc.1),
    if_neg (fun hc => by rw [h2] at hc; exact Bool.noConfusion hc.2), hs]
  simp only [hsp, if_true, hw]

/-- Witness for C8 at a concrete pubkey-hash import with its private key
and the watch-only flag. -/
theorem claim_C8_all_privkeys_watchonly_warning_witness :
    processImport ⟨false, true, .standard (.pkh 5), false, true, [], [5], none⟩ =
      ⟨true, none, true, true, false, [allPrivWarning]⟩ :=
  claim_C8_all_privkeys_watchonly_warning
    ⟨false, true, .standard (.pkh 5), false, true, [], [5], none⟩ (.pkh 5)
    rfl rfl rfl (by decide) rfl

/-- C9: when the supplied key material does not solve the script (e.g. a
wrong public or private key), the import still succeeds, the result is
classified non-solvable, watch-only and not spendable, the "Importing as
non-solvable" warning is emitted — and in a batch import every item is
classified independently, so one item's mismatch never aborts a sibling. -/
theorem claim_C9_key_mismatch_nonsolvable (req : ImportRequest)
    (t : ScriptTemplate) (h1 : req.hasDescriptor = false)
    (h2 : req.hasScriptPubKey = true) (hs : req.script = .standard t)
    (hm : materialSupplied req = true) (hsolv : solvableScript req t = false) :
    ((processImport req).success = true ∧
     (processImport req).solvable = false ∧
     (processImport req).iswatchonly = true ∧
     (processImport req).spendable = false ∧
     nonSolvableWarning ∈ (processImport req).warnings) ∧
    (∀ (reqs : List ImportRequest) (i : Nat) (hi : i < reqs.length),
      (importmulti reqs).length = reqs.length ∧
      (importmulti reqs).get ⟨i, by simpa [importmulti] using hi⟩ =
        processImport (reqs.get ⟨i, hi⟩)) := by
  have hspend : spendableScript req t = false := by
    cases h : spendableScript req t with
    | false => rfl
    | true => rw [spendable_imp_solvable req t h] at hsolv; exact Bool.noConfusion hsolv
  have hred : processImport req =
      ⟨true, none, false, solvableScript req t, true,
        (if materialSupplied req && !(solvableScript req t) then [nonSolvableWarning] else []) ++
          (if materialSupplied req && !req.watchonly then [missingPrivWarning] else [])⟩ := by
    unfold processImport
    rw [if_neg (fun hc => by rw [h1] at hc; exact Bool.noConfusion hc.1),
      if_neg (fun hc => by rw [h2] at hc; exact Bool.noConfusion hc.2), hs]
    simp only [hspend, Bool.false_eq_true, if_false]
  constructor
  · rw [hred]
    refine ⟨rfl, hsolv, rfl, rfl, ?_⟩
    simp [hm, hsolv]
  · intro reqs i hi
    refine ⟨by simp [importmulti], ?_⟩
    simp [importmulti]

/-- Witness for C9 at a concrete pubkey-hash import carrying only a wrong
public key. -/
theorem claim_C9_key_mismatch_nonsolvable_witness :
    (materialSupplied ⟨false, true, .standard (.pkh 5), false, false, [7], [], none⟩ = true ∧
      solvableScript ⟨false, true, .standard (.pkh 5), false, false, [7], [], none⟩ (.pkh 5) = false) ∧
    nonSolvableWarning ∈
      (processImport ⟨false, true, .standard (.pkh 5), false, false, [7], [], none⟩).warnings :=
  ⟨⟨by decide, by decide⟩,
   (claim_C9_key_mismatch_nonsolvable
     ⟨false, true, .standard (.pkh 5), false, false, [7], [], none⟩ (.pkh 5)
     rfl rfl rfl (by decide) (by decide)).1.2.2.2.2⟩

end PiratePsbt
